import Mathlib

set_option autoImplicit false
set_option maxHeartbeats 1000000

/-!
Verification of the HL7v2 message decoder (`HL7MessageToDict.parse_hl7_message`
and its helper `_unescape_hl7_value`).  The decoder is embedded shallowly over
`List Char`: Python `str.split`, `str.replace`, `str.strip`,
`re.split(r'[\r\n]+', ...)` and insertion-ordered dictionaries are modelled by
executable list functions, and the decoding pipeline is reproduced step by
step.
-/

namespace HL7

/-- The five HL7v2 delimiter characters in force for one decode call. -/
structure Delims where
  field_delimiter : Char
  component_delimiter : Char
  repetition_delimiter : Char
  escape_character : Char
  subcomponent_delimiter : Char
  deriving DecidableEq

/-- The default delimiter set `| ^ ~ \ &` from lines 56 to 60 of the source. -/
def defaultDelims : Delims := ⟨'|', '^', '~', '\\', '&'⟩

/-- Python `s.split(d)` for a one-character separator, returned as the pair
(first piece, remaining pieces); the full list of pieces is the first piece
consed onto the rest, hence always nonempty, exactly as in Python. -/
def splitP (d : Char) : List Char → List Char × List (List Char)
  | [] => ([], [])
  | c :: cs =>
    let p := splitP d cs
    if c = d then ([], p.1 :: p.2) else (c :: p.1, p.2)

/-- The full (nonempty) list of pieces of Python `s.split(d)`. -/
def splitAll (d : Char) (s : List Char) : List (List Char) :=
  (splitP d s).1 :: (splitP d s).2

/-- Carriage return or line feed, the character class of `r'[\r\n]+'`. -/
def isNL (c : Char) : Bool := c == '\r' || c == '\n'

/-- Python `re.split(r'[\r\n]+', s)`: split on maximal nonempty runs of
carriage returns and line feeds, as (first piece, remaining pieces). -/
def splitNLp : List Char → List Char × List (List Char)
  | [] => ([], [])
  | c :: cs =>
    let p := splitNLp cs
    if isNL c then
      match cs with
      | [] => ([], p.1 :: p.2)
      | c2 :: _ => if isNL c2 then p else ([], p.1 :: p.2)
    else (c :: p.1, p.2)

/-- The full (nonempty) list of pieces of `re.split(r'[\r\n]+', s)`. -/
def splitLines (s : List Char) : List (List Char) := (splitNLp s).1 :: (splitNLp s).2

/-- The whitespace characters stripped by Python `str.strip()`. -/
def pyWS : List Char := [' ', '\t', '\n', '\r', '\x0b', '\x0c']

/-- Membership of a character in a character list, by decidable equality. -/
def chMem (c : Char) : List Char → Bool
  | [] => false
  | x :: xs => if x = c then true else chMem c xs

/-- Whitespace test used by `strip`. -/
def isPySpace (c : Char) : Bool := chMem c pyWS

/-- Python `s.strip()`: remove leading and trailing whitespace. -/
def strip (s : List Char) : List Char :=
  ((s.dropWhile isPySpace).reverse.dropWhile isPySpace).reverse

/-- Decimal digits of a natural number, fuel-indexed so that the definition
unfolds by iota reduction; any `fuel` of at least `n + 1` suffices. -/
def toDigits : Nat → Nat → List Char
  | 0, _ => []
  | fuel + 1, n =>
    if n < 10 then [Nat.digitChar n]
    else toDigits fuel (n / 10) ++ [Nat.digitChar (n % 10)]

/-- Python `str(n)` for a natural number. -/
def natChars (n : Nat) : List Char := toDigits (n + 1) n

/-- Does `pat` occur at the head of `s`? -/
def listStarts : List Char → List Char → Bool
  | [], _ => true
  | _ :: _, [] => false
  | p :: ps, c :: cs => if p = c then listStarts ps cs else false

/-- Fuel-indexed body of Python `s.replace(pat, repl)`: scan left to right,
replacing each non-overlapping occurrence and never rescanning replacement
text.  Any `fuel` of at least `s.length` suffices for a nonempty `pat`, and
the program only replaces nonempty patterns. -/
def replaceAux (pat repl : List Char) : Nat → List Char → List Char
  | 0, s => s
  | fuel + 1, s =>
    match s with
    | [] => []
    | c :: cs =>
      if listStarts pat (c :: cs) then
        repl ++ replaceAux pat repl fuel ((c :: cs).drop pat.length)
      else c :: replaceAux pat repl fuel cs

/-- Python `s.replace(pat, repl)` for a nonempty `pat`. -/
def pyReplace (s pat repl : List Char) : List Char := replaceAux pat repl s.length s

/-- `HL7MessageToDict._unescape_hl7_value` (lines 7 to 30 of the source):
resolve HL7v2 escape sequences by successive text replacement, in exactly the
source's order. -/
def unescape_hl7_value (value : List Char)
    (field_del comp_del rep_del esc_char sub_comp_del : Char) : List Char :=
  let v1 := pyReplace value [esc_char, esc_char] [esc_char]
  let v2 := pyReplace v1 [esc_char, 'F', esc_char] [field_del]
  let v3 := pyReplace v2 [esc_char, 'S', esc_char] [comp_del]
  let v4 := pyReplace v3 [esc_char, 'R', esc_char] [rep_del]
  let v5 := pyReplace v4 [esc_char, 'E', esc_char] [esc_char]
  pyReplace v5 [esc_char, 'T', esc_char] [sub_comp_del]

/-- `_unescape_hl7_value` applied with the active delimiter set, as the
decoder calls it on every leaf. -/
def unescapeV (d : Delims) (v : List Char) : List Char :=
  unescape_hl7_value v d.field_delimiter d.component_delimiter d.repetition_delimiter
    d.escape_character d.subcomponent_delimiter

/-- The header tag `'MSH'`. -/
def mshName : List Char := ['M', 'S', 'H']

/-- The literal key `'MSH-1'` from line 91 of the source. -/
def mshKey1 : List Char := ['M', 'S', 'H', '-', '1']

/-- The literal key `'MSH-2'` from line 93 of the source. -/
def mshKey2 : List Char := ['M', 'S', 'H', '-', '2']

/-- The `add_comp_index` condition of lines 119 to 121: the repetition text
contains the component delimiter, or there is more than one component, or
there is exactly one component and it contains the subcomponent delimiter or
splits into more than one subcomponent. -/
def addCompB (d : Delims) (rep_value : List Char) (ncomps : Nat) (comp_value : List Char)
    (nsubs : Nat) : Bool :=
  chMem d.component_delimiter rep_value || decide (1 < ncomps) ||
    (decide (ncomps = 1) && (chMem d.subcomponent_delimiter comp_value || decide (1 < nsubs)))

/-- The `add_sub_comp_index` condition of line 126: the component text
contains the subcomponent delimiter or splits into more than one
subcomponent. -/
def addSubB (d : Delims) (comp_value : List Char) (nsubs : Nat) : Bool :=
  chMem d.subcomponent_delimiter comp_value || decide (1 < nsubs)

/-- The key synthesised for one leaf value, exactly as the source builds
`final_key` out of `field_key` and `key_parts` (lines 111 to 130). -/
def leafKey (d : Delims) (raw_segment_name : List Char) (hl7_field_number : Nat)
    (nreps rep_idx : Nat) (rep_value : List Char) (ncomps comp_idx : Nat)
    (comp_value : List Char) (nsubs sub_idx : Nat) : List Char :=
  let field_key := raw_segment_name ++ '-' :: natChars hl7_field_number ++
      (if 1 < nreps then '[' :: natChars rep_idx ++ [']'] else [])
  if addCompB d rep_value ncomps comp_value nsubs then
    if addSubB d comp_value nsubs then
      field_key ++ '-' :: natChars comp_idx ++ '-' :: natChars sub_idx
    else field_key ++ '-' :: natChars comp_idx
  else field_key

/-- A segment record: a Python dict from synthesised keys to leaf values. -/
abbrev Record := List (List Char × List Char)

/-- Python `dict[k] = v`: overwrite in place if the key is present, else
append at the end. -/
def dictSet (m : Record) (k v : List Char) : Record :=
  match m with
  | [] => [(k, v)]
  | (k', v') :: rest => if k' = k then (k', v) :: rest else (k', v') :: dictSet rest k v

/-- Python `dict.get(k)` on a segment record. -/
def lookupD (k : List Char) : Record → Option (List Char)
  | [] => none
  | (k', v) :: rest => if k' = k then some v else lookupD k rest

/-- The innermost loop of lines 110 to 136: store every subcomponent of one
component under its synthesised key, unescaped.  `sub_idx` enumerates from 1. -/
def procSubs (d : Delims) (name : List Char) (n nreps rep_idx : Nat) (rep_value : List Char)
    (ncomps comp_idx : Nat) (comp_value : List Char) (nsubs : Nat) :
    List (List Char) → Nat → Record → Record
  | [], _, acc => acc
  | sv :: rest, sub_idx, acc =>
    procSubs d name n nreps rep_idx rep_value ncomps comp_idx comp_value nsubs rest (sub_idx + 1)
      (dictSet acc (leafKey d name n nreps rep_idx rep_value ncomps comp_idx comp_value nsubs sub_idx)
        (unescapeV d sv))

/-- The component loop of lines 107 to 108. -/
def procComps (d : Delims) (name : List Char) (n nreps rep_idx : Nat) (rep_value : List Char)
    (ncomps : Nat) : List (List Char) → Nat → Record → Record
  | [], _, acc => acc
  | cv :: rest, comp_idx, acc =>
    let subs := splitAll d.subcomponent_delimiter cv
    procComps d name n nreps rep_idx rep_value ncomps rest (comp_idx + 1)
      (procSubs d name n nreps rep_idx rep_value ncomps comp_idx cv subs.length subs 1 acc)

/-- The repetition loop of lines 104 to 105. -/
def procReps (d : Delims) (name : List Char) (n nreps : Nat) :
    List (List Char) → Nat → Record → Record
  | [], _, acc => acc
  | rv :: rest, rep_idx, acc =>
    let comps := splitAll d.component_delimiter rv
    procReps d name n nreps rest (rep_idx + 1)
      (procComps d name n nreps rep_idx rv comps.length comps 1 acc)

/-- The general-field loop of lines 100 to 102: fields are numbered from the
starting index determined by the header special case. -/
def procFields (d : Delims) (name : List Char) :
    List (List Char) → Nat → Record → Record
  | [], _, acc => acc
  | fv :: rest, n, acc =>
    let reps := splitAll d.repetition_delimiter fv
    procFields d name rest (n + 1) (procReps d name n reps.length reps 1 acc)

/-- The header special-casing of lines 89 to 98: the initial record, the split
elements still to process, and the first general field number. -/
def lineSetup (d : Delims) (raw_segment_name : List Char) (rest : List (List Char)) :
    Record × List (List Char) × Nat :=
  if raw_segment_name = mshName then
    let base := dictSet [] mshKey1 [d.field_delimiter]
    match rest with
    | [] => (base, [], 3)
    | f1 :: r2 => (dictSet base mshKey2 f1, r2, 3)
  else ([], rest, 1)

/-- The record decoded from one segment line, given its tag and the remaining
field-delimiter split elements. -/
def segRecord (d : Delims) (raw_segment_name : List Char) (rest : List (List Char)) : Record :=
  let su := lineSetup d raw_segment_name rest
  procFields d raw_segment_name su.2.1 su.2.2 su.1

/-- One segment line decoded into a record (lines 82 to 136). -/
def parseLine (d : Delims) (line : List Char) : Record :=
  segRecord d (splitP d.field_delimiter line).1 (splitP d.field_delimiter line).2

/-- The value a segment tag maps to: a single record, or a list of records
once the tag repeats. -/
inductive SegValue where
  | one : Record → SegValue
  | many : List Record → SegValue
  deriving DecidableEq

/-- The decoded message: a Python dict from segment tags to `SegValue`. -/
abbrev Decoded := List (List Char × SegValue)

/-- The aggregation step of lines 138 to 149: first occurrence stores the
record, the second converts to a two-element list, later ones append. -/
def addSegment : Decoded → List Char → Record → Decoded
  | [], tag, r => [(tag, SegValue.one r)]
  | (t, v) :: rest, tag, r =>
    if t = tag then
      (t, match v with
          | SegValue.one r0 => SegValue.many [r0, r]
          | SegValue.many rs => SegValue.many (rs ++ [r])) :: rest
    else (t, v) :: addSegment rest tag r

/-- Python `dict.get(k)` on the decoded message. -/
def lookupSeg (k : List Char) : Decoded → Option SegValue
  | [] => none
  | (k', v) :: rest => if k' = k then some v else lookupSeg k rest

/-- Delimiter discovery from a found header line (lines 67 to 75): character
3 is the field delimiter when the line is longer than 3 characters, and
characters 4 to 7 are the remaining four delimiters when the line has at
least 8 characters. -/
def discover : Option (List Char) → Delims
  | none => defaultDelims
  | some l =>
    let fd := if h : 3 < l.length then l.get ⟨3, h⟩ else defaultDelims.field_delimiter
    if h8 : 8 ≤ l.length then
      ⟨fd, l.get ⟨4, by omega⟩, l.get ⟨5, by omega⟩, l.get ⟨6, by omega⟩, l.get ⟨7, by omega⟩⟩
    else ⟨fd, defaultDelims.component_delimiter, defaultDelims.repetition_delimiter,
      defaultDelims.escape_character, defaultDelims.subcomponent_delimiter⟩

/-- The segment lines of a message: `re.split(r'[\r\n]+', msg.strip())`. -/
def messageSegments (msg : List Char) : List (List Char) := splitLines (strip msg)

/-- The delimiters governing a whole message, discovered from the first
segment line that starts with `'MSH'` (line 65 of the source). -/
def messageDelims (msg : List Char) : Delims :=
  discover ((messageSegments msg).find? (fun s => listStarts mshName s))

/-- The body of the second pass (lines 78 to 149): skip blank lines, decode
the line, and merge its record into the accumulated result. -/
def stepSeg (d : Delims) (acc : Decoded) (line : List Char) : Decoded :=
  if (strip line).isEmpty then acc
  else addSegment acc (splitP d.field_delimiter line).1 (parseLine d line)

/-- `HL7MessageToDict.parse_hl7_message` (lines 33 to 151): the whole decoder. -/
def parse_hl7_message (msg : List Char) : Decoded :=
  (messageSegments msg).foldl (stepSeg (messageDelims msg)) []

/-- Checked list indexing: Python `l[i]`, raising on an out-of-range index. -/
def getCheck (l : List Char) (i : Nat) : Except String Char :=
  match l.get? i with
  | some c => Except.ok c
  | none => Except.error "string index out of range"

/-- Delimiter discovery with the source's fallible character accesses made
explicit: `msh_segment_line[3]` and the four characters of
`msh_segment_line[4:8]` can raise when out of range. -/
def discoverChecked : Option (List Char) → Except String Delims
  | none => Except.ok defaultDelims
  | some l => do
    let fd ← if 3 < l.length then getCheck l 3 else Except.ok defaultDelims.field_delimiter
    if 8 ≤ l.length then do
      let cd ← getCheck l 4
      let rd ← getCheck l 5
      let ec ← getCheck l 6
      let sd ← getCheck l 7
      Except.ok ⟨fd, cd, rd, ec, sd⟩
    else
      Except.ok ⟨fd, defaultDelims.component_delimiter, defaultDelims.repetition_delimiter,
        defaultDelims.escape_character, defaultDelims.subcomponent_delimiter⟩

/-- The header special-casing with the source's fallible `fields[1]` access
made explicit, guarded as in the source by `len(fields) > 1`. -/
def lineSetupChecked (d : Delims) (raw_segment_name : List Char) (rest : List (List Char)) :
    Except String (Record × List (List Char) × Nat) :=
  if raw_segment_name = mshName then
    let base := dictSet [] mshKey1 [d.field_delimiter]
    if 0 < rest.length then
      match rest.get? 0 with
      | some f1 => Except.ok (dictSet base mshKey2 f1, rest.drop 1, 3)
      | none => Except.error "list index out of range"
    else Except.ok (base, rest.drop 1, 3)
  else Except.ok ([], rest, 1)

/-- One segment line decoded, through the checked header handling. -/
def parseLineChecked (d : Delims) (line : List Char) : Except String Record := do
  let name := (splitP d.field_delimiter line).1
  let rest := (splitP d.field_delimiter line).2
  let su ← lineSetupChecked d name rest
  Except.ok (procFields d name su.2.1 su.2.2 su.1)

/-- The second-pass body with the fallible line decoding made explicit. -/
def stepSegChecked (d : Delims) (acc : Decoded) (line : List Char) : Except String Decoded :=
  if (strip line).isEmpty then Except.ok acc
  else do
    let r ← parseLineChecked d line
    Except.ok (addSegment acc (splitP d.field_delimiter line).1 r)

/-- The whole decoder with every fallible operation of the source made
explicit; it either raises or returns a decoded message. -/
def parseChecked (msg : List Char) : Except String Decoded := do
  let d ← discoverChecked ((messageSegments msg).find? (fun s => listStarts mshName s))
  (messageSegments msg).foldlM (stepSegChecked d) []

/-- An occurrence of `pat` at some offset of `s`. -/
def listHas (pat : List Char) : List Char → Bool
  | [] => listStarts pat []
  | c :: cs => listStarts pat (c :: cs) || listHas pat cs

/-- Is `c` one of the ten decimal digit characters? -/
def isDigit (c : Char) : Bool :=
  chMem c ['0', '1', '2', '3', '4', '5', '6', '7', '8', '9']

/-- The bracketed repetition suffix of a field key, when present. -/
def brktPart (nreps rep_idx : Nat) : List Char :=
  if 1 < nreps then '[' :: natChars rep_idx ++ [']'] else []

/-- The component/subcomponent suffix of a leaf key, when present. -/
def ctailPart (d : Delims) (rv : List Char) (ncomps ci : Nat) (cv : List Char)
    (ns si : Nat) : List Char :=
  if addCompB d rv ncomps cv ns then
    '-' :: natChars ci ++ (if addSubB d cv ns then '-' :: natChars si else [])
  else []

/-- Everything of a leaf key after the tag and its following hyphen. -/
def keyTail (d : Delims) (n nreps ri : Nat) (rv : List Char) (nc ci : Nat)
    (cv : List Char) (ns si : Nat) : List Char :=
  natChars n ++ brktPart nreps ri ++ ctailPart d rv nc ci cv ns si

/-- The effect on one tag's stored value of merging, in order, the records
decoded from the lines carrying that tag. -/
def combineSeg : Option SegValue → List Record → Option SegValue
  | v, [] => v
  | none, r :: rs => combineSeg (some (SegValue.one r)) rs
  | some (SegValue.one r0), r :: rs => combineSeg (some (SegValue.many [r0, r])) rs
  | some (SegValue.many l), r :: rs => combineSeg (some (SegValue.many (l ++ [r]))) rs

/-- The one-step update `addSegment` performs on the stored value of the
tag being merged. -/
def pushSeg (v : Option SegValue) (r : Record) : SegValue :=
  match v with
  | none => SegValue.one r
  | some (SegValue.one r0) => SegValue.many [r0, r]
  | some (SegValue.many l) => SegValue.many (l ++ [r])

/-- The lines of the message carrying `tag`, in order: non-blank, and with
first split element equal to `tag`. -/
def tagLines (d : Delims) (tag : List Char) (ls : List (List Char)) : List (List Char) :=
  ls.filter (fun l => !(strip l).isEmpty && decide ((splitP d.field_delimiter l).1 = tag))

/-- The records a stored `SegValue` holds, in order. -/
def recordsOf : SegValue → List Record
  | SegValue.one r => [r]
  | SegValue.many rs => rs

/-- Every leaf of every general field of `fl`, numbered from `n0`, is stored
in `r` under its synthesised key, unescaped.  Repetition, component and
subcomponent indices are 1-based. -/
def leafStored (d : Delims) (name : List Char) (n0 : Nat) (fl : List (List Char))
    (r : Record) : Prop :=
  ∀ (i : Nat) (hi : i < fl.length),
    ∀ (jr : Nat) (hjr : jr < (splitAll d.repetition_delimiter (fl.get ⟨i, hi⟩)).length),
    ∀ (jc : Nat) (hjc : jc < (splitAll d.component_delimiter
      ((splitAll d.repetition_delimiter (fl.get ⟨i, hi⟩)).get ⟨jr, hjr⟩)).length),
    ∀ (js : Nat) (hjs : js < (splitAll d.subcomponent_delimiter
      ((splitAll d.component_delimiter
        ((splitAll d.repetition_delimiter (fl.get ⟨i, hi⟩)).get ⟨jr, hjr⟩)).get
          ⟨jc, hjc⟩)).length),
    lookupD (leafKey d name (n0 + i)
        (splitAll d.repetition_delimiter (fl.get ⟨i, hi⟩)).length (1 + jr)
        ((splitAll d.repetition_delimiter (fl.get ⟨i, hi⟩)).get ⟨jr, hjr⟩)
        (splitAll d.component_delimiter
          ((splitAll d.repetition_delimiter (fl.get ⟨i, hi⟩)).get ⟨jr, hjr⟩)).length
        (1 + jc)
        ((splitAll d.component_delimiter
          ((splitAll d.repetition_delimiter (fl.get ⟨i, hi⟩)).get ⟨jr, hjr⟩)).get
            ⟨jc, hjc⟩)
        (splitAll d.subcomponent_delimiter
          ((splitAll d.component_delimiter
            ((splitAll d.repetition_delimiter (fl.get ⟨i, hi⟩)).get ⟨jr, hjr⟩)).get
              ⟨jc, hjc⟩)).length
        (1 + js)) r
      = some (unescapeV d ((splitAll d.subcomponent_delimiter
          ((splitAll d.component_delimiter
            ((splitAll d.repetition_delimiter (fl.get ⟨i, hi⟩)).get ⟨jr, hjr⟩)).get
              ⟨jc, hjc⟩)).get ⟨js, hjs⟩))

/-! ### Basic facts about the string primitives -/

theorem chMem_iff (c : Char) (s : List Char) : chMem c s = true ↔ c ∈ s := by
  induction s with
  | nil => simp [chMem]
  | cons x xs ih =>
    by_cases h : x = c
    · subst h
      simp [chMem]
    · simp only [chMem, if_neg h, List.mem_cons, ih]
      constructor
      · exact Or.inr
      · rintro (rfl | hx)
        · exact absurd rfl h
        · exact hx

theorem listStarts_self_append (pat t : List Char) : listStarts pat (pat ++ t) = true := by
  induction pat with
  | nil => rfl
  | cons p ps ih => simp [listStarts, ih]

/-! ### Record (Python dict) lemmas -/

theorem lookupD_dictSet (m : Record) (k k' v : List Char) :
    lookupD k (dictSet m k' v) = if k' = k then some v else lookupD k m := by
  induction m with
  | nil => simp only [dictSet, lookupD]
  | cons kv rest ih =>
    obtain ⟨k0, v0⟩ := kv
    simp only [dictSet]
    by_cases h0 : k0 = k'
    · rw [if_pos h0]
      subst h0
      simp only [lookupD]
      by_cases h1 : k0 = k
      · simp only [if_pos h1]
      · simp only [if_neg h1]
    · rw [if_neg h0]
      simp only [lookupD]
      by_cases h1 : k0 = k
      · simp only [if_pos h1]
        rw [if_neg (fun h => h0 (h1.trans h.symm))]
      · simp only [if_neg h1]
        rw [ih]

theorem mem_dictSet {kv : List Char × List Char} {m : Record} {k v : List Char}
    (h : kv ∈ dictSet m k v) : kv ∈ m ∨ kv = (k, v) := by
  induction m with
  | nil =>
    simp only [dictSet, List.mem_singleton] at h
    exact Or.inr h
  | cons kv0 rest ih =>
    obtain ⟨k0, v0⟩ := kv0
    simp only [dictSet] at h
    by_cases h0 : k0 = k
    · rw [if_pos h0] at h
      subst h0
      rcases List.mem_cons.mp h with h1 | h1
      · exact Or.inr h1
      · exact Or.inl (List.mem_cons_of_mem _ h1)
    · rw [if_neg h0] at h
      rcases List.mem_cons.mp h with h1 | h1
      · exact Or.inl (by rw [h1]; exact List.mem_cons_self _ _)
      · rcases ih h1 with h2 | h2
        · exact Or.inl (List.mem_cons_of_mem _ h2)
        · exact Or.inr h2

/-! ### Decimal digit strings -/

theorem toDigits_congr : ∀ f g n : Nat, n < f → n < g → toDigits f n = toDigits g n := by
  intro f
  induction f with
  | zero => intro g n h; omega
  | succ f ih =>
    intro g n hf hg
    match g with
    | 0 => omega
    | g + 1 =>
      by_cases h10 : n < 10
      · simp [toDigits, h10]
      · have hd : n / 10 < n := Nat.div_lt_self (by omega) (by omega)
        simp only [toDigits, if_neg h10]
        rw [ih g (n / 10) (by omega) (by omega)]

theorem natChars_unfold (n : Nat) :
    natChars n = if n < 10 then [Nat.digitChar n]
      else natChars (n / 10) ++ [Nat.digitChar (n % 10)] := by
  have key : toDigits (n + 1) n =
      if n < 10 then [Nat.digitChar n] else toDigits n (n / 10) ++ [Nat.digitChar (n % 10)] := rfl
  by_cases h10 : n < 10
  · rw [natChars, key, if_pos h10, if_pos h10]
  · rw [natChars, key, if_neg h10, if_neg h10]
    have hd : n / 10 < n := Nat.div_lt_self (by omega) (by omega)
    rw [toDigits_congr n (n / 10 + 1) (n / 10) (by omega) (by omega)]
    rfl

theorem digitChar_isDigit {n : Nat} (h : n < 10) : isDigit (Nat.digitChar n) = true := by
  interval_cases n <;> decide

theorem digitChar_inj_lt {m n : Nat} (hm : m < 10) (hn : n < 10)
    (h : Nat.digitChar m = Nat.digitChar n) : m = n := by
  interval_cases m <;> interval_cases n <;> revert h <;> decide

theorem natChars_ne_nil (n : Nat) : natChars n ≠ [] := by
  rw [natChars_unfold]
  split <;> simp

theorem natChars_digits (n : Nat) : ∀ c ∈ natChars n, isDigit c = true := by
  induction n using Nat.strong_induction_on with
  | _ n ih =>
    rw [natChars_unfold]
    by_cases h10 : n < 10
    · simp only [if_pos h10, List.mem_singleton]
      intro c hc
      subst hc
      exact digitChar_isDigit h10
    · have hd : n / 10 < n := Nat.div_lt_self (by omega) (by omega)
      simp only [if_neg h10, List.mem_append, List.mem_singleton]
      intro c hc
      rcases hc with hc | hc
      · exact ih _ hd c hc
      · subst hc
        exact digitChar_isDigit (Nat.mod_lt _ (by omega))

theorem natChars_inj : ∀ m n : Nat, natChars m = natChars n → m = n := by
  intro m
  induction m using Nat.strong_induction_on with
  | _ m ih =>
    intro n h
    rw [natChars_unfold m, natChars_unfold n] at h
    by_cases hm : m < 10 <;> by_cases hn : n < 10
    · rw [if_pos hm, if_pos hn] at h
      simp only [List.cons.injEq, and_true] at h
      exact digitChar_inj_lt hm hn h
    · exfalso
      rw [if_pos hm, if_neg hn] at h
      have hlen := congrArg List.length h
      simp only [List.length_singleton, List.length_append, List.length_cons,
        List.length_nil] at hlen
      have h0 : 0 < (natChars (n / 10)).length := List.length_pos.mpr (natChars_ne_nil _)
      omega
    · exfalso
      rw [if_neg hm, if_pos hn] at h
      have hlen := congrArg List.length h
      simp only [List.length_singleton, List.length_append, List.length_cons,
        List.length_nil] at hlen
      have h0 : 0 < (natChars (m / 10)).length := List.length_pos.mpr (natChars_ne_nil _)
      omega
    · rw [if_neg hm, if_neg hn] at h
      have hlen : (natChars (m / 10)).length = (natChars (n / 10)).length := by
        have hl := congrArg List.length h
        simp only [List.length_append, List.length_cons, List.length_nil] at hl
        omega
      obtain ⟨h1, h2⟩ := List.append_inj h hlen
      have hdiv : m / 10 = n / 10 :=
        ih (m / 10) (Nat.div_lt_self (by omega) (by omega)) (n / 10) h1
      have hmod : m % 10 = n % 10 := by
        simp only [List.cons.injEq, and_true] at h2
        exact digitChar_inj_lt (Nat.mod_lt _ (by omega)) (Nat.mod_lt _ (by omega)) h2
      omega

/-- Cancellation of a digit run against a tail that does not begin with a
digit: if two such concatenations agree, then both parts agree. -/
theorem digits_append_cancel :
    ∀ a b t u : List Char, (∀ c ∈ a, isDigit c = true) → (∀ c ∈ b, isDigit c = true) →
      (∀ c, t.head? = some c → isDigit c = false) →
      (∀ c, u.head? = some c → isDigit c = false) →
      a ++ t = b ++ u → a = b ∧ t = u := by
  intro a
  induction a with
  | nil =>
    intro b t u _ hb ht _ h
    cases b with
    | nil => exact ⟨rfl, h⟩
    | cons c b' =>
      exfalso
      simp only [List.nil_append] at h
      have hc : isDigit c = true := hb c (by simp)
      have hhd : t.head? = some c := by rw [h]; rfl
      rw [ht c hhd] at hc
      exact Bool.false_ne_true hc
  | cons c a' ih =>
    intro b t u ha hb ht hu h
    cases b with
    | nil =>
      exfalso
      simp only [List.nil_append] at h
      have hc : isDigit c = true := ha c (by simp)
      have hhd : u.head? = some c := by rw [← h]; rfl
      rw [hu c hhd] at hc
      exact Bool.false_ne_true hc
    | cons c2 b' =>
      simp only [List.cons_append, List.cons.injEq] at h
      obtain ⟨hc, h'⟩ := h
      subst hc
      obtain ⟨h1, h2⟩ := ih b' t u (fun x hx => ha x (by simp [hx]))
        (fun x hx => hb x (by simp [hx])) ht hu h'
      exact ⟨by rw [h1], h2⟩

/-! ### Python `str.replace` -/

theorem replaceAux_congr {pat repl : List Char} (hpat : pat ≠ []) :
    ∀ f g (s : List Char), s.length ≤ f → s.length ≤ g →
      replaceAux pat repl f s = replaceAux pat repl g s := by
  have hp1 : 1 ≤ pat.length := by
    cases pat with
    | nil => exact absurd rfl hpat
    | cons p ps => simp
  intro f
  induction f with
  | zero =>
    intro g s hf hg
    have hs : s = [] := List.length_eq_zero.mp (by omega)
    subst hs
    cases g <;> rfl
  | succ f ih =>
    intro g s hf hg
    cases g with
    | zero =>
      have hs : s = [] := List.length_eq_zero.mp (by omega)
      subst hs
      rfl
    | succ g =>
      cases s with
      | nil => rfl
      | cons c cs =>
        simp only [replaceAux]
        by_cases hstart : listStarts pat (c :: cs) = true
        · rw [if_pos hstart, if_pos hstart]
          congr 1
          have hl : ((c :: cs).drop pat.length).length ≤ f := by
            simp only [List.length_drop, List.length_cons]
            simp only [List.length_cons] at hf
            omega
          have hl2 : ((c :: cs).drop pat.length).length ≤ g := by
            simp only [List.length_drop, List.length_cons]
            simp only [List.length_cons] at hg
            omega
          exact ih g _ hl hl2
        · rw [if_neg hstart, if_neg hstart]
          congr 1
          exact ih g cs (by simp only [List.length_cons] at hf; omega)
            (by simp only [List.length_cons] at hg; omega)

theorem pyReplace_nil (pat repl : List Char) : pyReplace [] pat repl = [] := rfl

theorem pyReplace_start {pat : List Char} (repl : List Char) {s : List Char} (hpat : pat ≠ [])
    (h : listStarts pat s = true) :
    pyReplace s pat repl = repl ++ pyReplace (s.drop pat.length) pat repl := by
  have hp1 : 1 ≤ pat.length := by
    cases pat with
    | nil => exact absurd rfl hpat
    | cons p ps => simp
  cases s with
  | nil =>
    cases pat with
    | nil => exact absurd rfl hpat
    | cons p ps => exact absurd h (by simp [listStarts])
  | cons c cs =>
    show replaceAux pat repl (cs.length + 1) (c :: cs) = _
    simp only [replaceAux, if_pos h]
    congr 1
    apply replaceAux_congr hpat
    · simp only [List.length_drop, List.length_cons]
      omega
    · exact Nat.le_refl _
  
theorem pyReplace_not_start {pat : List Char} (repl : List Char) {c : Char} {cs : List Char}
    (hpat : pat ≠ []) (h : listStarts pat (c :: cs) = false) :
    pyReplace (c :: cs) pat repl = c :: pyReplace cs pat repl := by
  show replaceAux pat repl (cs.length + 1) (c :: cs) = _
  rw [replaceAux, if_neg (by simp [h])]
  rfl

theorem pyReplace_not_has {pat repl s : List Char} (hpat : pat ≠ [])
    (h : listHas pat s = false) : pyReplace s pat repl = s := by
  induction s with
  | nil => rfl
  | cons c cs ih =>
    simp only [listHas, Bool.or_eq_false_iff] at h
    rw [pyReplace_not_start repl hpat h.1, ih h.2]

theorem pyReplace_single {pat : List Char} (repl : List Char) {pre suf : List Char}
    (hpat : pat ≠ [])
    (hpre : ∀ p q, pre = p ++ q → q ≠ [] → listStarts pat (q ++ pat ++ suf) = false)
    (hsuf : listHas pat suf = false) :
    pyReplace (pre ++ pat ++ suf) pat repl = pre ++ repl ++ suf := by
  induction pre with
  | nil =>
    simp only [List.nil_append]
    rw [pyReplace_start repl hpat (listStarts_self_append pat suf)]
    rw [List.drop_left, pyReplace_not_has hpat hsuf]
  | cons c pre' ih =>
    have hns : listStarts pat ((c :: pre') ++ pat ++ suf) = false :=
      hpre [] (c :: pre') rfl (by simp)
    simp only [List.cons_append] at hns ⊢
    rw [pyReplace_not_start repl hpat hns]
    rw [ih (fun p q hq hqne => hpre (c :: p) q (by simp [hq]) hqne)]

/-! ### Structure of synthesised keys -/

theorem leafKey_eq_tail (d : Delims) (name : List Char) (n nreps ri : Nat) (rv : List Char)
    (nc ci : Nat) (cv : List Char) (ns si : Nat) :
    leafKey d name n nreps ri rv nc ci cv ns si =
      name ++ '-' :: keyTail d n nreps ri rv nc ci cv ns si := by
  unfold leafKey keyTail brktPart ctailPart
  split_ifs <;> simp [List.append_assoc]

theorem brkt_ctail_head_not_digit (d : Delims) (nreps ri : Nat) (rv : List Char)
    (nc ci : Nat) (cv : List Char) (ns si : Nat) :
    ∀ c, (brktPart nreps ri ++ ctailPart d rv nc ci cv ns si).head? = some c →
      isDigit c = false := by
  unfold brktPart ctailPart
  split_ifs <;> intro c hc <;> simp_all <;> subst hc <;> decide

theorem ctail_head_not_digit (d : Delims) (rv : List Char) (nc ci : Nat) (cv : List Char)
    (ns si : Nat) :
    ∀ c, (ctailPart d rv nc ci cv ns si).head? = some c → isDigit c = false := by
  unfold ctailPart
  split_ifs <;> intro c hc <;> simp_all <;> subst hc <;> decide

theorem ctail_head_cases (d : Delims) (rv : List Char) (nc ci : Nat) (cv : List Char)
    (ns si : Nat) :
    ctailPart d rv nc ci cv ns si = [] ∨
      ∃ t, ctailPart d rv nc ci cv ns si = '-' :: t := by
  unfold ctailPart
  by_cases hc : addCompB d rv nc cv ns = true
  · rw [if_pos hc]
    exact Or.inr ⟨_, rfl⟩
  · rw [if_neg hc]
    exact Or.inl rfl

theorem stail_head_not_digit (d : Delims) (cv : List Char) (ns si : Nat) (t : List Char) :
    ∀ c, ((if addSubB d cv ns then '-' :: natChars si else []) ++ t).head? = some c →
      isDigit c = false ∨ t.head? = some c := by
  split_ifs <;> intro c hc
  · simp only [List.cons_append, List.head?_cons, Option.some.injEq] at hc
    subst hc
    exact Or.inl (by decide)
  · simp only [List.nil_append] at hc
    exact Or.inr hc

/-- Two leaf keys built in the same segment agree only if they agree level by
level: same field number; brackets present together and then with the same
repetition index; component indices present together and then equal; likewise
for subcomponent indices. -/
theorem keyTail_inj {d : Delims} {n₁ n₂ nreps₁ nreps₂ ri₁ ri₂ : Nat} {rv₁ rv₂ : List Char}
    {nc₁ nc₂ ci₁ ci₂ : Nat} {cv₁ cv₂ : List Char} {ns₁ ns₂ si₁ si₂ : Nat}
    (h : keyTail d n₁ nreps₁ ri₁ rv₁ nc₁ ci₁ cv₁ ns₁ si₁ =
      keyTail d n₂ nreps₂ ri₂ rv₂ nc₂ ci₂ cv₂ ns₂ si₂) :
    n₁ = n₂ ∧ ((1 < nreps₁) ↔ (1 < nreps₂)) ∧ (1 < nreps₁ → ri₁ = ri₂) ∧
      addCompB d rv₁ nc₁ cv₁ ns₁ = addCompB d rv₂ nc₂ cv₂ ns₂ ∧
      (addCompB d rv₁ nc₁ cv₁ ns₁ = true → ci₁ = ci₂) ∧
      (addCompB d rv₁ nc₁ cv₁ ns₁ = true →
        addSubB d cv₁ ns₁ = addSubB d cv₂ ns₂ ∧ (addSubB d cv₁ ns₁ = true → si₁ = si₂)) := by
  unfold keyTail at h
  rw [List.append_assoc, List.append_assoc] at h
  obtain ⟨hn, hBC⟩ := digits_append_cancel _ _ _ _ (natChars_digits n₁) (natChars_digits n₂)
    (brkt_ctail_head_not_digit d nreps₁ ri₁ rv₁ nc₁ ci₁ cv₁ ns₁ si₁)
    (brkt_ctail_head_not_digit d nreps₂ ri₂ rv₂ nc₂ ci₂ cv₂ ns₂ si₂) h
  have hn' : n₁ = n₂ := natChars_inj _ _ hn
  clear h hn
  have hC : ctailPart d rv₁ nc₁ ci₁ cv₁ ns₁ si₁ = ctailPart d rv₂ nc₂ ci₂ cv₂ ns₂ si₂ ∧
      ((1 < nreps₁) ↔ (1 < nreps₂)) ∧ (1 < nreps₁ → ri₁ = ri₂) := by
    unfold brktPart at hBC
    by_cases hr₁ : 1 < nreps₁ <;> by_cases hr₂ : 1 < nreps₂
    · rw [if_pos hr₁, if_pos hr₂] at hBC
      simp only [List.cons_append, List.append_assoc, List.cons.injEq,
        List.singleton_append] at hBC
      obtain ⟨h1, h2⟩ := digits_append_cancel _ _ _ _ (natChars_digits ri₁) (natChars_digits ri₂)
        (by intro c hc; simp only [List.head?_cons, Option.some.injEq] at hc; subst hc; decide)
        (by intro c hc; simp only [List.head?_cons, Option.some.injEq] at hc; subst hc; decide)
        hBC.2
      simp only [List.cons.injEq] at h2
      exact ⟨h2.2, by simp [hr₁, hr₂], fun _ => natChars_inj _ _ h1⟩
    · exfalso
      rw [if_pos hr₁, if_neg hr₂] at hBC
      simp only [List.nil_append, List.cons_append] at hBC
      rcases ctail_head_cases d rv₂ nc₂ ci₂ cv₂ ns₂ si₂ with he | ⟨t, ht⟩
      · rw [he] at hBC
        exact List.cons_ne_nil _ _ hBC
      · rw [ht] at hBC
        simp only [List.cons.injEq] at hBC
        exact absurd hBC.1 (by decide)
    · exfalso
      rw [if_neg hr₁, if_pos hr₂] at hBC
      simp only [List.nil_append, List.cons_append] at hBC
      rcases ctail_head_cases d rv₁ nc₁ ci₁ cv₁ ns₁ si₁ with he | ⟨t, ht⟩
      · rw [he] at hBC
        exact List.cons_ne_nil _ _ hBC.symm
      · rw [ht] at hBC
        simp only [List.cons.injEq] at hBC
        exact absurd hBC.1 (by decide)
    · rw [if_neg hr₁, if_neg hr₂] at hBC
      simp only [List.nil_append] at hBC
      exact ⟨hBC, by simp [hr₁, hr₂], fun h => absurd h hr₁⟩
  obtain ⟨hC, hriff, hri⟩ := hC
  refine ⟨hn', hriff, hri, ?_⟩
  unfold ctailPart at hC
  by_cases hc₁ : addCompB d rv₁ nc₁ cv₁ ns₁ = true <;>
    by_cases hc₂ : addCompB d rv₂ nc₂ cv₂ ns₂ = true
  · rw [if_pos hc₁, if_pos hc₂] at hC
    injection hC with hhd hC
    obtain ⟨h1, h2⟩ := digits_append_cancel _ _ _ _ (natChars_digits ci₁) (natChars_digits ci₂)
      (by
        intro c hc
        rcases stail_head_not_digit d cv₁ ns₁ si₁ [] c (by simpa using hc) with h | h
        · exact h
        · simp at h)
      (by
        intro c hc
        rcases stail_head_not_digit d cv₂ ns₂ si₂ [] c (by simpa using hc) with h | h
        · exact h
        · simp at h)
      hC
    have hci : ci₁ = ci₂ := natChars_inj _ _ h1
    refine ⟨by rw [hc₁, hc₂], fun _ => hci, fun _ => ?_⟩
    by_cases hs₁ : addSubB d cv₁ ns₁ = true <;> by_cases hs₂ : addSubB d cv₂ ns₂ = true
    · rw [if_pos hs₁, if_pos hs₂] at h2
      injection h2 with hhd2 h2
      exact ⟨by rw [hs₁, hs₂], fun _ => natChars_inj _ _ h2⟩
    · rw [if_pos hs₁, if_neg hs₂] at h2
      exact absurd h2 (List.cons_ne_nil _ _)
    · rw [if_neg hs₁, if_pos hs₂] at h2
      exact absurd h2.symm (List.cons_ne_nil _ _)
    · refine ⟨?_, fun hs => absurd hs hs₁⟩
      rw [Bool.eq_false_iff.mpr hs₁, Bool.eq_false_iff.mpr hs₂]
  · exfalso
    rw [if_pos hc₁, if_neg hc₂] at hC
    exact List.cons_ne_nil _ _ hC
  · exfalso
    rw [if_neg hc₁, if_pos hc₂] at hC
    exact List.cons_ne_nil _ _ hC.symm
  · refine ⟨?_, fun hc => absurd hc hc₁, fun hc => absurd hc hc₁⟩
    rw [Bool.eq_false_iff.mpr hc₁, Bool.eq_false_iff.mpr hc₂]

/-- The main consequence of `keyTail_inj` at the `leafKey` level. -/
theorem leafKey_inj {d : Delims} {name : List Char} {n₁ n₂ nreps₁ nreps₂ ri₁ ri₂ : Nat}
    {rv₁ rv₂ : List Char} {nc₁ nc₂ ci₁ ci₂ : Nat} {cv₁ cv₂ : List Char} {ns₁ ns₂ si₁ si₂ : Nat}
    (h : leafKey d name n₁ nreps₁ ri₁ rv₁ nc₁ ci₁ cv₁ ns₁ si₁ =
      leafKey d name n₂ nreps₂ ri₂ rv₂ nc₂ ci₂ cv₂ ns₂ si₂) :
    n₁ = n₂ ∧ ((1 < nreps₁) ↔ (1 < nreps₂)) ∧ (1 < nreps₁ → ri₁ = ri₂) ∧
      addCompB d rv₁ nc₁ cv₁ ns₁ = addCompB d rv₂ nc₂ cv₂ ns₂ ∧
      (addCompB d rv₁ nc₁ cv₁ ns₁ = true → ci₁ = ci₂) ∧
      (addCompB d rv₁ nc₁ cv₁ ns₁ = true →
        addSubB d cv₁ ns₁ = addSubB d cv₂ ns₂ ∧ (addSubB d cv₁ ns₁ = true → si₁ = si₂)) := by
  rw [leafKey_eq_tail, leafKey_eq_tail] at h
  have h' := List.append_cancel_left h
  simp only [List.cons.injEq, true_and] at h'
  exact keyTail_inj h'

/-! ### Lookup behaviour of the processing loops -/

theorem splitAll_length_pos (d : Char) (s : List Char) : 0 < (splitAll d s).length := by
  simp [splitAll]

theorem procSubs_lookup_ne (d : Delims) (name : List Char) (n nreps ri : Nat) (rv : List Char)
    (nc ci : Nat) (cv : List Char) (ns : Nat) (k : List Char) :
    ∀ (subs : List (List Char)) (si : Nat) (acc : Record),
      (∀ j, j < subs.length → k ≠ leafKey d name n nreps ri rv nc ci cv ns (si + j)) →
      lookupD k (procSubs d name n nreps ri rv nc ci cv ns subs si acc) = lookupD k acc := by
  intro subs
  induction subs with
  | nil => intro si acc _; rfl
  | cons sv rest ih =>
    intro si acc hk
    simp only [procSubs]
    rw [ih (si + 1) _ ?hrest]
    case hrest =>
      intro j hj
      have h := hk (j + 1) (by simpa using Nat.succ_lt_succ hj)
      have he : si + (j + 1) = si + 1 + j := by omega
      rwa [he] at h
    have h0 : k ≠ leafKey d name n nreps ri rv nc ci cv ns si := by
      simpa using hk 0 (by simp)
    rw [lookupD_dictSet, if_neg (fun he => h0 he.symm)]

theorem procComps_lookup_ne (d : Delims) (name : List Char) (n nreps ri : Nat) (rv : List Char)
    (nc : Nat) (k : List Char) :
    ∀ (comps : List (List Char)) (ci : Nat) (acc : Record),
      (∀ j (hj : j < comps.length), ∀ si',
        k ≠ leafKey d name n nreps ri rv nc (ci + j) (comps.get ⟨j, hj⟩)
          (splitAll d.subcomponent_delimiter (comps.get ⟨j, hj⟩)).length si') →
      lookupD k (procComps d name n nreps ri rv nc comps ci acc) = lookupD k acc := by
  intro comps
  induction comps with
  | nil => intro ci acc _; rfl
  | cons cv rest ih =>
    intro ci acc hk
    simp only [procComps]
    rw [ih (ci + 1) _ ?hrest]
    case hrest =>
      intro j hj si'
      have h := hk (j + 1) (by simpa using Nat.succ_lt_succ hj) si'
      have he : ci + (j + 1) = ci + 1 + j := by omega
      rwa [he] at h
    exact procSubs_lookup_ne d name n nreps ri rv nc ci cv _ k _ 1 acc
      (fun j hj => by simpa using hk 0 (by simp) (1 + j))

theorem procReps_lookup_ne (d : Delims) (name : List Char) (n nreps : Nat) (k : List Char) :
    ∀ (reps : List (List Char)) (ri : Nat) (acc : Record),
      (∀ j (hj : j < reps.length), ∀ nc' ci' (cv' : List Char) ns' si',
        k ≠ leafKey d name n nreps (ri + j) (reps.get ⟨j, hj⟩) nc' ci' cv' ns' si') →
      lookupD k (procReps d name n nreps reps ri acc) = lookupD k acc := by
  intro reps
  induction reps with
  | nil => intro ri acc _; rfl
  | cons rv rest ih =>
    intro ri acc hk
    simp only [procReps]
    rw [ih (ri + 1) _ ?hrest]
    case hrest =>
      intro j hj nc' ci' cv' ns' si'
      have h := hk (j + 1) (by simpa using Nat.succ_lt_succ hj) nc' ci' cv' ns' si'
      have he : ri + (j + 1) = ri + 1 + j := by omega
      rwa [he] at h
    exact procComps_lookup_ne d name n nreps ri rv _ k _ 1 acc
      (fun j hj si' => by simpa using hk 0 (by simp) _ (1 + j) _ _ si')

theorem procFields_lookup_ne (d : Delims) (name : List Char) (k : List Char) :
    ∀ (fl : List (List Char)) (n0 : Nat) (acc : Record),
      (∀ j, j < fl.length → ∀ nreps' ri' (rv' : List Char) nc' ci' (cv' : List Char) ns' si',
        k ≠ leafKey d name (n0 + j) nreps' ri' rv' nc' ci' cv' ns' si') →
      lookupD k (procFields d name fl n0 acc) = lookupD k acc := by
  intro fl
  induction fl with
  | nil => intro n0 acc _; rfl
  | cons fv rest ih =>
    intro n0 acc hk
    simp only [procFields]
    rw [ih (n0 + 1) _ ?hrest]
    case hrest =>
      intro j hj nreps' ri' rv' nc' ci' cv' ns' si'
      have h := hk (j + 1) (by simpa using Nat.succ_lt_succ hj) nreps' ri' rv' nc' ci' cv' ns' si'
      have he : n0 + (j + 1) = n0 + 1 + j := by omega
      rwa [he] at h
    exact procReps_lookup_ne d name n0 _ k _ 1 acc
      (fun j hj nc' ci' cv' ns' si' => by
        simpa using hk 0 (by simp) _ (1 + j) _ nc' ci' cv' ns' si')

theorem procSubs_lookup_at (d : Delims) (name : List Char) (n nreps ri : Nat) (rv : List Char)
    (nc ci : Nat) (cv : List Char) (ns : Nat) :
    ∀ (subs : List (List Char)) (si : Nat) (acc : Record) (j : Nat) (hj : j < subs.length),
      0 < nc → subs.length ≤ ns →
      lookupD (leafKey d name n nreps ri rv nc ci cv ns (si + j))
          (procSubs d name n nreps ri rv nc ci cv ns subs si acc)
        = some (unescapeV d (subs.get ⟨j, hj⟩)) := by
  intro subs
  induction subs with
  | nil =>
    intro si acc j hj
    exact absurd hj (by simp)
  | cons sv rest ih =>
    intro si acc j hj hnc hns
    simp only [procSubs]
    simp only [List.length_cons] at hns
    cases j with
    | zero =>
      simp only [Nat.add_zero]
      rw [procSubs_lookup_ne d name n nreps ri rv nc ci cv ns _ rest (si + 1) _ ?hne]
      case hne =>
        intro j hj' he
        obtain ⟨-, -, -, -, -, hsub⟩ := leafKey_inj he
        have h2ns : 1 < ns := by omega
        have hsubB : addSubB d cv ns = true := by
          unfold addSubB
          simp [h2ns]
        have hcompB : addCompB d rv nc cv ns = true := by
          unfold addCompB
          by_cases h1 : nc = 1
          · simp [h1, h2ns]
          · have h2 : 1 < nc := by omega
            simp [h2]
        obtain ⟨-, hsi⟩ := hsub hcompB
        have := hsi hsubB
        omega
      rw [lookupD_dictSet, if_pos rfl]
      rfl
    | succ j' =>
      have harith : si + (j' + 1) = si + 1 + j' := by omega
      rw [harith]
      exact ih (si + 1) _ j' (by simpa using Nat.lt_of_succ_lt_succ hj) hnc (by omega)

theorem procComps_lookup_at (d : Delims) (name : List Char) (n nreps ri : Nat) (rv : List Char)
    (nc : Nat) :
    ∀ (comps : List (List Char)) (ci : Nat) (acc : Record) (j : Nat) (hj : j < comps.length),
      0 < nc → comps.length ≤ nc →
      ∀ (js : Nat)
        (hjs : js < (splitAll d.subcomponent_delimiter (comps.get ⟨j, hj⟩)).length),
      lookupD (leafKey d name n nreps ri rv nc (ci + j) (comps.get ⟨j, hj⟩)
            (splitAll d.subcomponent_delimiter (comps.get ⟨j, hj⟩)).length (1 + js))
          (procComps d name n nreps ri rv nc comps ci acc)
        = some (unescapeV d
            ((splitAll d.subcomponent_delimiter (comps.get ⟨j, hj⟩)).get ⟨js, hjs⟩)) := by
  intro comps
  induction comps with
  | nil =>
    intro ci acc j hj
    exact absurd hj (by simp)
  | cons cv rest ih =>
    intro ci acc j hj hnc hlen js hjs
    simp only [procComps]
    simp only [List.length_cons] at hlen
    cases j with
    | zero =>
      rw [procComps_lookup_ne d name n nreps ri rv nc _ rest (ci + 1) _ ?hne]
      case hne =>
        intro jj hjj si' he
        obtain ⟨-, -, -, hceq, hci, -⟩ := leafKey_inj he
        have h2 : 1 < nc := by omega
        have hcompB : addCompB d rv nc cv (splitAll d.subcomponent_delimiter cv).length = true := by
          unfold addCompB
          simp [h2]
        have := hci hcompB
        omega
      exact procSubs_lookup_at d name n nreps ri rv nc ci cv _ _ 1 acc js hjs hnc (Nat.le_refl _)
    | succ jj =>
      have harith : ci + (jj + 1) = ci + 1 + jj := by omega
      rw [harith]
      exact ih (ci + 1) _ jj (by simpa using Nat.lt_of_succ_lt_succ hj) hnc (by omega) js hjs

theorem procReps_lookup_at (d : Delims) (name : List Char) (n nreps : Nat) :
    ∀ (reps : List (List Char)) (ri : Nat) (acc : Record) (j : Nat) (hj : j < reps.length),
      reps.length ≤ nreps →
      ∀ (jc : Nat)
        (hjc : jc < (splitAll d.component_delimiter (reps.get ⟨j, hj⟩)).length)
        (js : Nat)
        (hjs : js < (splitAll d.subcomponent_delimiter
          ((splitAll d.component_delimiter (reps.get ⟨j, hj⟩)).get ⟨jc, hjc⟩)).length),
      lookupD (leafKey d name n nreps (ri + j) (reps.get ⟨j, hj⟩)
            (splitAll d.component_delimiter (reps.get ⟨j, hj⟩)).length (1 + jc)
            ((splitAll d.component_delimiter (reps.get ⟨j, hj⟩)).get ⟨jc, hjc⟩)
            (splitAll d.subcomponent_delimiter
              ((splitAll d.component_delimiter (reps.get ⟨j, hj⟩)).get ⟨jc, hjc⟩)).length
            (1 + js))
          (procReps d name n nreps reps ri acc)
        = some (unescapeV d ((splitAll d.subcomponent_delimiter
            ((splitAll d.component_delimiter (reps.get ⟨j, hj⟩)).get ⟨jc, hjc⟩)).get
              ⟨js, hjs⟩)) := by
  intro reps
  induction reps with
  | nil =>
    intro ri acc j hj
    exact absurd hj (by simp)
  | cons rv rest ih =>
    intro ri acc j hj hlen jc hjc js hjs
    simp only [procReps]
    simp only [List.length_cons] at hlen
    cases j with
    | zero =>
      rw [procReps_lookup_ne d name n nreps _ rest (ri + 1) _ ?hne]
      case hne =>
        intro jj hjj nc' ci' cv' ns' si' he
        obtain ⟨-, hriff, hri, -⟩ := leafKey_inj he
        have h2 : 1 < nreps := by omega
        have := hri h2
        omega
      exact procComps_lookup_at d name n nreps ri rv _ _ 1 acc jc hjc
        (splitAll_length_pos _ _) (Nat.le_refl _) js hjs
    | succ jj =>
      have harith : ri + (jj + 1) = ri + 1 + jj := by omega
      rw [harith]
      exact ih (ri + 1) _ jj (by simpa using Nat.lt_of_succ_lt_succ hj) (by omega) jc hjc js hjs

/-- Master retrieval theorem for the general-field loop: the leaf at any
valid (field, repetition, component, subcomponent) position is stored,
unescaped, under its synthesised key. -/
theorem procFields_lookup_at (d : Delims) (name : List Char) :
    ∀ (fl : List (List Char)) (n0 : Nat) (acc : Record) (i : Nat) (hi : i < fl.length),
      ∀ (jr : Nat)
        (hjr : jr < (splitAll d.repetition_delimiter (fl.get ⟨i, hi⟩)).length)
        (jc : Nat)
        (hjc : jc < (splitAll d.component_delimiter
          ((splitAll d.repetition_delimiter (fl.get ⟨i, hi⟩)).get ⟨jr, hjr⟩)).length)
        (js : Nat)
        (hjs : js < (splitAll d.subcomponent_delimiter
          ((splitAll d.component_delimiter
            ((splitAll d.repetition_delimiter (fl.get ⟨i, hi⟩)).get ⟨jr, hjr⟩)).get
              ⟨jc, hjc⟩)).length),
      lookupD (leafKey d name (n0 + i)
            (splitAll d.repetition_delimiter (fl.get ⟨i, hi⟩)).length (1 + jr)
            ((splitAll d.repetition_delimiter (fl.get ⟨i, hi⟩)).get ⟨jr, hjr⟩)
            (splitAll d.component_delimiter
              ((splitAll d.repetition_delimiter (fl.get ⟨i, hi⟩)).get ⟨jr, hjr⟩)).length
            (1 + jc)
            ((splitAll d.component_delimiter
              ((splitAll d.repetition_delimiter (fl.get ⟨i, hi⟩)).get ⟨jr, hjr⟩)).get
                ⟨jc, hjc⟩)
            (splitAll d.subcomponent_delimiter
              ((splitAll d.component_delimiter
                ((splitAll d.repetition_delimiter (fl.get ⟨i, hi⟩)).get ⟨jr, hjr⟩)).get
                  ⟨jc, hjc⟩)).length
            (1 + js))
          (procFields d name fl n0 acc)
        = some (unescapeV d ((splitAll d.subcomponent_delimiter
            ((splitAll d.component_delimiter
              ((splitAll d.repetition_delimiter (fl.get ⟨i, hi⟩)).get ⟨jr, hjr⟩)).get
                ⟨jc, hjc⟩)).get ⟨js, hjs⟩)) := by
  intro fl
  induction fl with
  | nil =>
    intro n0 acc i hi
    exact absurd hi (by simp)
  | cons fv rest ih =>
    intro n0 acc i hi jr hjr jc hjc js hjs
    simp only [procFields]
    cases i with
    | zero =>
      rw [procFields_lookup_ne d name _ rest (n0 + 1) _ ?hne]
      case hne =>
        intro j hj nreps' ri' rv' nc' ci' cv' ns' si' he
        obtain ⟨hn, -⟩ := leafKey_inj he
        omega
      exact procReps_lookup_at d name n0 _ _ 1 acc jr hjr (Nat.le_refl _) jc hjc js hjs
    | succ i' =>
      have harith : n0 + (i' + 1) = n0 + 1 + i' := by omega
      rw [harith]
      exact ih (n0 + 1) _ i' (by simpa using Nat.lt_of_succ_lt_succ hi) jr hjr jc hjc js hjs

/-! ### Segment records -/

theorem keyTail_singleton {d : Delims} {n nreps ri : Nat} {rv : List Char} {nc ci : Nat}
    {cv : List Char} {ns si : Nat} {c : Char}
    (h : keyTail d n nreps ri rv nc ci cv ns si = [c]) : natChars n = [c] := by
  unfold keyTail at h
  rw [List.append_assoc] at h
  cases hx : natChars n with
  | nil => exact absurd hx (natChars_ne_nil n)
  | cons a l =>
    rw [hx] at h
    simp only [List.cons_append, List.cons.injEq] at h
    obtain ⟨ha, hl⟩ := h
    have : l = [] := by
      rcases List.append_eq_nil.mp hl with ⟨h1, -⟩
      exact h1
    subst ha this
    rfl

theorem mshKey1_ne_leafKey (d : Delims) {n : Nat} (hn : 3 ≤ n) (nreps ri : Nat)
    (rv : List Char) (nc ci : Nat) (cv : List Char) (ns si : Nat) :
    mshKey1 ≠ leafKey d mshName n nreps ri rv nc ci cv ns si := by
  intro h
  rw [leafKey_eq_tail] at h
  have h0 : mshName ++ ['-', '1'] = mshName ++ '-' :: keyTail d n nreps ri rv nc ci cv ns si := h
  have h1 := List.append_cancel_left h0
  injection h1 with h2 h3
  have h4 := keyTail_singleton h3.symm
  have h5 : n = 1 := natChars_inj n 1 (by rw [h4]; rfl)
  omega

theorem mshKey2_ne_leafKey (d : Delims) {n : Nat} (hn : 3 ≤ n) (nreps ri : Nat)
    (rv : List Char) (nc ci : Nat) (cv : List Char) (ns si : Nat) :
    mshKey2 ≠ leafKey d mshName n nreps ri rv nc ci cv ns si := by
  intro h
  rw [leafKey_eq_tail] at h
  have h0 : mshName ++ ['-', '2'] = mshName ++ '-' :: keyTail d n nreps ri rv nc ci cv ns si := h
  have h1 := List.append_cancel_left h0
  injection h1 with h2 h3
  have h4 := keyTail_singleton h3.symm
  have h5 : n = 2 := natChars_inj n 2 (by rw [h4]; rfl)
  omega

theorem segRecord_msh_nil (d : Delims) :
    segRecord d mshName [] =
      procFields d mshName [] 3 (dictSet [] mshKey1 [d.field_delimiter]) := rfl

theorem segRecord_msh_cons (d : Delims) (f1 : List Char) (r2 : List (List Char)) :
    segRecord d mshName (f1 :: r2) =
      procFields d mshName r2 3
        (dictSet (dictSet [] mshKey1 [d.field_delimiter]) mshKey2 f1) := rfl

theorem segRecord_other (d : Delims) (name : List Char) (rest : List (List Char))
    (h : name ≠ mshName) :
    segRecord d name rest = procFields d name rest 1 [] := by
  unfold segRecord lineSetup
  rw [if_neg h]

/-- The header record always stores the field delimiter under `'MSH-1'`:
the general fields, numbered from 3, can never overwrite it. -/
theorem segRecord_msh1 (d : Delims) (rest : List (List Char)) :
    lookupD mshKey1 (segRecord d mshName rest) = some [d.field_delimiter] := by
  cases rest with
  | nil =>
    rw [segRecord_msh_nil]
    simp only [procFields]
    simp [dictSet, lookupD]
  | cons f1 r2 =>
    rw [segRecord_msh_cons]
    rw [procFields_lookup_ne d mshName mshKey1 r2 3 _
      (fun j hj nreps' ri' rv' nc' ci' cv' ns' si' =>
        mshKey1_ne_leafKey d (by omega) nreps' ri' rv' nc' ci' cv' ns' si')]
    have hne : mshKey1 ≠ mshKey2 := by decide
    simp [dictSet, lookupD, hne]

/-- The header record stores the raw second split element under `'MSH-2'`
whenever it exists; general fields can never overwrite it. -/
theorem segRecord_msh2 (d : Delims) (f1 : List Char) (r2 : List (List Char)) :
    lookupD mshKey2 (segRecord d mshName (f1 :: r2)) = some f1 := by
  rw [segRecord_msh_cons]
  rw [procFields_lookup_ne d mshName mshKey2 r2 3 _
    (fun j hj nreps' ri' rv' nc' ci' cv' ns' si' =>
      mshKey2_ne_leafKey d (by omega) nreps' ri' rv' nc' ci' cv' ns' si')]
  have hne : mshKey1 ≠ mshKey2 := by decide
  simp [dictSet, lookupD, hne, Ne.symm hne]

/-! ### Which values end up in a record -/

theorem mem_procSubs {d : Delims} {name : List Char} {n nreps ri : Nat} {rv : List Char}
    {nc ci : Nat} {cv : List Char} {ns : Nat} :
    ∀ (subs : List (List Char)) (si : Nat) (acc : Record) (kv : List Char × List Char),
      kv ∈ procSubs d name n nreps ri rv nc ci cv ns subs si acc →
      kv ∈ acc ∨ ∃ sv ∈ subs, kv.2 = unescapeV d sv := by
  intro subs
  induction subs with
  | nil =>
    intro si acc kv h
    exact Or.inl h
  | cons sv rest ih =>
    intro si acc kv h
    simp only [procSubs] at h
    rcases ih (si + 1) _ kv h with h' | ⟨sv', hsv', hv⟩
    · rcases mem_dictSet h' with h'' | h''
      · exact Or.inl h''
      · exact Or.inr ⟨sv, by simp, by rw [h'']⟩
    · exact Or.inr ⟨sv', by simp [hsv'], hv⟩

theorem mem_procComps {d : Delims} {name : List Char} {n nreps ri : Nat} {rv : List Char}
    {nc : Nat} :
    ∀ (comps : List (List Char)) (ci : Nat) (acc : Record) (kv : List Char × List Char),
      kv ∈ procComps d name n nreps ri rv nc comps ci acc →
      kv ∈ acc ∨ ∃ cv ∈ comps, ∃ sv ∈ splitAll d.subcomponent_delimiter cv,
        kv.2 = unescapeV d sv := by
  intro comps
  induction comps with
  | nil =>
    intro ci acc kv h
    exact Or.inl h
  | cons cv rest ih =>
    intro ci acc kv h
    simp only [procComps] at h
    rcases ih (ci + 1) _ kv h with h' | ⟨cv', hcv', hv⟩
    · rcases mem_procSubs _ _ _ _ h' with h'' | ⟨sv, hsv, hv⟩
      · exact Or.inl h''
      · exact Or.inr ⟨cv, by simp, sv, hsv, hv⟩
    · exact Or.inr ⟨cv', by simp [hcv'], hv⟩

theorem mem_procReps {d : Delims} {name : List Char} {n nreps : Nat} :
    ∀ (reps : List (List Char)) (ri : Nat) (acc : Record) (kv : List Char × List Char),
      kv ∈ procReps d name n nreps reps ri acc →
      kv ∈ acc ∨ ∃ rv ∈ reps, ∃ cv ∈ splitAll d.component_delimiter rv,
        ∃ sv ∈ splitAll d.subcomponent_delimiter cv, kv.2 = unescapeV d sv := by
  intro reps
  induction reps with
  | nil =>
    intro ri acc kv h
    exact Or.inl h
  | cons rv rest ih =>
    intro ri acc kv h
    simp only [procReps] at h
    rcases ih (ri + 1) _ kv h with h' | ⟨rv', hrv', hv⟩
    · rcases mem_procComps _ _ _ _ h' with h'' | ⟨cv, hcv, sv, hsv, hv⟩
      · exact Or.inl h''
      · exact Or.inr ⟨rv, by simp, cv, hcv, sv, hsv, hv⟩
    · exact Or.inr ⟨rv', by simp [hrv'], hv⟩

theorem mem_procFields {d : Delims} {name : List Char} :
    ∀ (fl : List (List Char)) (n0 : Nat) (acc : Record) (kv : List Char × List Char),
      kv ∈ procFields d name fl n0 acc →
      kv ∈ acc ∨ ∃ fv ∈ fl, ∃ rv ∈ splitAll d.repetition_delimiter fv,
        ∃ cv ∈ splitAll d.component_delimiter rv,
        ∃ sv ∈ splitAll d.subcomponent_delimiter cv, kv.2 = unescapeV d sv := by
  intro fl
  induction fl with
  | nil =>
    intro n0 acc kv h
    exact Or.inl h
  | cons fv rest ih =>
    intro n0 acc kv h
    simp only [procFields] at h
    rcases ih (n0 + 1) _ kv h with h' | ⟨fv', hfv', hv⟩
    · rcases mem_procReps _ _ _ _ h' with h'' | ⟨rv, hrv, cv, hcv, sv, hsv, hv⟩
      · exact Or.inl h''
      · exact Or.inr ⟨fv, by simp, rv, hrv, cv, hcv, sv, hsv, hv⟩
    · exact Or.inr ⟨fv', by simp [hfv'], hv⟩

/-- Every binding of a decoded segment record is the `'MSH-1'` delimiter
entry, the raw `'MSH-2'` entry, or an unescaped leaf of some field. -/
theorem mem_segRecord {d : Delims} {name : List Char} {rest : List (List Char)}
    {kv : List Char × List Char} (h : kv ∈ segRecord d name rest) :
    kv = (mshKey1, [d.field_delimiter]) ∨
    (∃ f1, rest.head? = some f1 ∧ kv = (mshKey2, f1)) ∨
    (∃ fv ∈ rest, ∃ rv ∈ splitAll d.repetition_delimiter fv,
      ∃ cv ∈ splitAll d.component_delimiter rv,
      ∃ sv ∈ splitAll d.subcomponent_delimiter cv, kv.2 = unescapeV d sv) := by
  by_cases hname : name = mshName
  · subst hname
    cases rest with
    | nil =>
      rw [segRecord_msh_nil] at h
      rcases mem_procFields _ _ _ _ h with h' | ⟨fv, hfv, rest'⟩
      · rcases mem_dictSet h' with h'' | h''
        · simp at h''
        · exact Or.inl h''
      · simp at hfv
    | cons f1 r2 =>
      rw [segRecord_msh_cons] at h
      rcases mem_procFields _ _ _ _ h with h' | ⟨fv, hfv, hrest⟩
      · rcases mem_dictSet h' with h'' | h''
        · rcases mem_dictSet h'' with h3 | h3
          · simp at h3
          · exact Or.inl h3
        · exact Or.inr (Or.inl ⟨f1, rfl, h''⟩)
      · exact Or.inr (Or.inr ⟨fv, List.mem_cons_of_mem _ hfv, hrest⟩)
  · rw [segRecord_other d name rest hname] at h
    rcases mem_procFields _ _ _ _ h with h' | ⟨fv, hfv, hrest⟩
    · simp at h'
    · exact Or.inr (Or.inr ⟨fv, hfv, hrest⟩)

/-! ### Aggregation of repeated segments -/

theorem combineSeg_cons (v : Option SegValue) (r : Record) (rs : List Record) :
    combineSeg v (r :: rs) = combineSeg (some (pushSeg v r)) rs := by
  match v with
  | none => rfl
  | some (SegValue.one r0) => rfl
  | some (SegValue.many l) => rfl

theorem lookupSeg_addSegment_self :
    ∀ (m : Decoded) (tag : List Char) (r : Record),
      lookupSeg tag (addSegment m tag r) = some (pushSeg (lookupSeg tag m) r) := by
  intro m
  induction m with
  | nil =>
    intro tag r
    simp [addSegment, lookupSeg, pushSeg]
  | cons tv rest ih =>
    intro tag r
    obtain ⟨t, v⟩ := tv
    simp only [addSegment]
    by_cases ht : t = tag
    · rw [if_pos ht]
      simp only [lookupSeg, if_pos ht]
      cases v <;> rfl
    · rw [if_neg ht]
      simp only [lookupSeg, if_neg ht]
      exact ih tag r

theorem lookupSeg_addSegment_ne {t tag : List Char} (h : t ≠ tag) :
    ∀ (m : Decoded) (r : Record), lookupSeg tag (addSegment m t r) = lookupSeg tag m := by
  intro m
  induction m with
  | nil =>
    intro r
    simp [addSegment, lookupSeg, h]
  | cons tv rest ih =>
    intro r
    obtain ⟨t0, v⟩ := tv
    simp only [addSegment]
    by_cases ht : t0 = t
    · rw [if_pos ht]
      simp only [lookupSeg]
      rw [if_neg (by rw [ht]; exact h), if_neg (by rw [ht]; exact h)]
    · rw [if_neg ht]
      simp only [lookupSeg]
      by_cases ht2 : t0 = tag
      · rw [if_pos ht2, if_pos ht2]
      · rw [if_neg ht2, if_neg ht2]
        exact ih r

theorem combineSeg_nil (v : Option SegValue) : combineSeg v [] = v := by
  match v with
  | none => rfl
  | some (SegValue.one r) => rfl
  | some (SegValue.many l) => rfl

theorem tagLines_cons (d : Delims) (tag l : List Char) (ls : List (List Char)) :
    tagLines d tag (l :: ls) =
      if (!(strip l).isEmpty && decide ((splitP d.field_delimiter l).1 = tag)) = true
      then l :: tagLines d tag ls else tagLines d tag ls := by
  simp [tagLines, List.filter_cons]

theorem foldl_stepSeg_lookup (d : Delims) (tag : List Char) :
    ∀ (ls : List (List Char)) (acc : Decoded),
      lookupSeg tag (ls.foldl (stepSeg d) acc) =
        combineSeg (lookupSeg tag acc) ((tagLines d tag ls).map (parseLine d)) := by
  intro ls
  induction ls with
  | nil =>
    intro acc
    simp only [List.foldl_nil, tagLines, List.filter_nil, List.map_nil, combineSeg_nil]
  | cons l ls ih =>
    intro acc
    simp only [List.foldl_cons]
    by_cases hb : (strip l).isEmpty
    · have hstep : stepSeg d acc l = acc := by
        simp [stepSeg, hb]
      have hcond : (!(strip l).isEmpty &&
          decide ((splitP d.field_delimiter l).1 = tag)) = false := by
        simp [hb]
      rw [hstep, tagLines_cons, hcond, if_neg Bool.false_ne_true]
      exact ih acc
    · have hstep : stepSeg d acc l =
          addSegment acc (splitP d.field_delimiter l).1 (parseLine d l) := by
        simp [stepSeg, hb]
      rw [hstep]
      by_cases ht : (splitP d.field_delimiter l).1 = tag
      · have hcond : (!(strip l).isEmpty &&
            decide ((splitP d.field_delimiter l).1 = tag)) = true := by
          simp [hb, ht]
        rw [tagLines_cons, hcond, if_pos rfl, List.map_cons, ih, ht,
          lookupSeg_addSegment_self, combineSeg_cons]
      · have hcond : (!(strip l).isEmpty &&
            decide ((splitP d.field_delimiter l).1 = tag)) = false := by
          simp [ht]
        rw [tagLines_cons, hcond, if_neg Bool.false_ne_true, ih,
          lookupSeg_addSegment_ne ht]

theorem combineSeg_many_append :
    ∀ (rs : List Record) (l : List Record),
      combineSeg (some (SegValue.many l)) rs = some (SegValue.many (l ++ rs)) := by
  intro rs
  induction rs with
  | nil => intro l; simp [combineSeg]
  | cons r rs ih =>
    intro l
    show combineSeg (some (SegValue.many (l ++ [r]))) rs = _
    rw [ih]
    simp

theorem combineSeg_none (rs : List Record) :
    combineSeg none rs = match rs with
      | [] => none
      | [r] => some (SegValue.one r)
      | r1 :: r2 :: rest => some (SegValue.many (r1 :: r2 :: rest)) := by
  match rs with
  | [] => rfl
  | [r] => rfl
  | r1 :: r2 :: rest =>
    show combineSeg (some (SegValue.one r1)) (r2 :: rest) = _
    show combineSeg (some (SegValue.many [r1, r2])) rest = _
    rw [combineSeg_many_append]
    rfl

/-- What one tag maps to in the decoded message, in terms of the records of
the lines carrying that tag. -/
theorem parse_lookupSeg (msg : List Char) (tag : List Char) :
    lookupSeg tag (parse_hl7_message msg) =
      combineSeg none
        ((tagLines (messageDelims msg) tag (messageSegments msg)).map
          (parseLine (messageDelims msg))) := by
  unfold parse_hl7_message
  rw [foldl_stepSeg_lookup]
  rfl

/-! ### The checked decoder never raises -/

theorem get?_eq_get' {α : Type} : ∀ (l : List α) (i : Nat) (h : i < l.length),
    l.get? i = some (l.get ⟨i, h⟩) := by
  intro l
  induction l with
  | nil => intro i h; simp at h
  | cons a l ih =>
    intro i h
    cases i with
    | zero => rfl
    | succ i => exact ih i (Nat.lt_of_succ_lt_succ h)

theorem get?_eq_none' {α : Type} : ∀ (l : List α) (i : Nat), l.length ≤ i → l.get? i = none := by
  intro l
  induction l with
  | nil => intro i h; rfl
  | cons a l ih =>
    intro i h
    cases i with
    | zero => simp at h
    | succ i => exact ih i (by simpa using Nat.le_of_succ_le_succ h)

theorem discoverChecked_eq (o : Option (List Char)) :
    discoverChecked o = Except.ok (discover o) := by
  match o with
  | none => rfl
  | some l =>
    simp only [discoverChecked, discover]
    by_cases h3 : 3 < l.length <;> by_cases h8 : 8 ≤ l.length
    · have hg3 : getCheck l 3 = Except.ok (l.get ⟨3, h3⟩) := by
        unfold getCheck
        rw [get?_eq_get' l 3 h3]
      have hg4 : getCheck l 4 = Except.ok (l.get ⟨4, by omega⟩) := by
        unfold getCheck
        rw [get?_eq_get' l 4 (by omega)]
      have hg5 : getCheck l 5 = Except.ok (l.get ⟨5, by omega⟩) := by
        unfold getCheck
        rw [get?_eq_get' l 5 (by omega)]
      have hg6 : getCheck l 6 = Except.ok (l.get ⟨6, by omega⟩) := by
        unfold getCheck
        rw [get?_eq_get' l 6 (by omega)]
      have hg7 : getCheck l 7 = Except.ok (l.get ⟨7, by omega⟩) := by
        unfold getCheck
        rw [get?_eq_get' l 7 (by omega)]
      simp only [if_pos h3, if_pos h8, dif_pos h3, dif_pos h8, hg3, hg4, hg5, hg6, hg7]
      rfl
    · have hg3 : getCheck l 3 = Except.ok (l.get ⟨3, h3⟩) := by
        unfold getCheck
        rw [get?_eq_get' l 3 h3]
      simp only [if_pos h3, if_neg h8, dif_pos h3, dif_neg h8, hg3]
      rfl
    · omega
    · simp only [if_neg h3, if_neg h8, dif_neg h3, dif_neg h8]
      rfl

theorem lineSetupChecked_eq (d : Delims) (name : List Char) (rest : List (List Char)) :
    lineSetupChecked d name rest = Except.ok (lineSetup d name rest) := by
  unfold lineSetupChecked lineSetup
  by_cases h : name = mshName
  · rw [if_pos h, if_pos h]
    cases rest with
    | nil => rfl
    | cons f1 r2 =>
      rw [if_pos (by simp)]
      rfl
  · rw [if_neg h, if_neg h]

theorem except_ok_bind {ε α β : Type} (a : α) (f : α → Except ε β) :
    (Except.ok a : Except ε α) >>= f = f a := rfl

theorem parseLineChecked_eq (d : Delims) (line : List Char) :
    parseLineChecked d line = Except.ok (parseLine d line) := by
  unfold parseLineChecked parseLine segRecord
  simp only [lineSetupChecked_eq, except_ok_bind]

theorem stepSegChecked_eq (d : Delims) (acc : Decoded) (line : List Char) :
    stepSegChecked d acc line = Except.ok (stepSeg d acc line) := by
  unfold stepSegChecked stepSeg
  by_cases hb : (strip line).isEmpty
  · rw [if_pos hb, if_pos hb]
  · rw [if_neg hb, if_neg hb, parseLineChecked_eq]
    rfl

theorem foldlM_stepSeg (d : Delims) :
    ∀ (ls : List (List Char)) (acc : Decoded),
      List.foldlM (stepSegChecked d) acc ls = Except.ok (ls.foldl (stepSeg d) acc) := by
  intro ls
  induction ls with
  | nil => intro acc; rfl
  | cons l ls ih =>
    intro acc
    rw [List.foldl_cons, List.foldlM_cons, stepSegChecked_eq, except_ok_bind]
    exact ih _

/-! ### Escape-resolution facts -/

theorem unescapeV_nil (d : Delims) : unescapeV d [] = [] := rfl

theorem listHas_head_notin {c : Char} {cp s : List Char} (h : c ∉ s) :
    listHas (c :: cp) s = false := by
  induction s with
  | nil => rfl
  | cons x xs ih =>
    simp only [listHas]
    have hs : listStarts (c :: cp) (x :: xs) = false := by
      simp only [listStarts]
      rw [if_neg (fun he => h (List.mem_cons.mpr (Or.inl he)))]
    rw [hs]
    simp only [Bool.false_or]
    exact ih (fun hc => h (List.mem_cons_of_mem _ hc))

theorem starts_one_false {c : Char} {s : List Char} (h : c ∉ s) :
    listStarts [c] s = false := by
  cases s with
  | nil => rfl
  | cons s0 ss =>
    simp only [listStarts]
    rw [if_neg (fun he => h (List.mem_cons.mpr (Or.inl he)))]

theorem starts_two_false {a b : Char} {s : List Char} (hb : b ∉ s) :
    listStarts [a, b] s = false := by
  cases s with
  | nil => rfl
  | cons s0 ss =>
    simp only [listStarts]
    by_cases h : a = s0
    · rw [if_pos h]
      cases ss with
      | nil => rfl
      | cons t0 ts =>
        simp only [listStarts]
        rw [if_neg (fun he => hb (List.mem_cons_of_mem _ (List.mem_cons.mpr (Or.inl he))))]
    · rw [if_neg h]

/-- No doubled escape character occurs in `pre ++ [ec, 'E', ec] ++ suf` when
neither `pre` nor `suf` mentions the escape character. -/
theorem hasDbl_mid {ec : Char} {pre suf : List Char} (hE : ec ≠ 'E')
    (hpre : ec ∉ pre) (hsuf : ec ∉ suf) :
    listHas [ec, ec] (pre ++ [ec, 'E', ec] ++ suf) = false := by
  induction pre with
  | nil =>
    simp only [List.nil_append, List.cons_append]
    have h1 : listStarts [ec, ec] (ec :: 'E' :: ec :: suf) = false := by
      simp [listStarts, hE]
    have h2 : listStarts [ec, ec] ('E' :: ec :: suf) = false := by
      simp [listStarts, hE]
    have h3 : listStarts [ec, ec] (ec :: suf) = false := by
      simp [listStarts, starts_one_false hsuf]
    have h4 : listHas [ec, ec] suf = false := listHas_head_notin hsuf
    simp only [listHas, h1, h2, h3, h4, Bool.false_or]
  | cons p pre' ih =>
    have hp : ec ≠ p := fun he => hpre (List.mem_cons.mpr (Or.inl he))
    have ih' := ih (fun hc => hpre (List.mem_cons_of_mem _ hc))
    simp only [List.cons_append, listHas, listStarts, if_neg hp, Bool.false_or]
    exact ih'

/-- No escape code `[ec, X, ec]` with `X ≠ 'E'` occurs in
`pre ++ [ec, 'E', ec] ++ suf` when neither side mentions `ec`. -/
theorem hasCode_mid {ec X : Char} {pre suf : List Char} (hE : ec ≠ 'E') (hXE : X ≠ 'E')
    (hpre : ec ∉ pre) (hsuf : ec ∉ suf) :
    listHas [ec, X, ec] (pre ++ [ec, 'E', ec] ++ suf) = false := by
  induction pre with
  | nil =>
    simp only [List.nil_append, List.cons_append]
    have h1 : listStarts [ec, X, ec] (ec :: 'E' :: ec :: suf) = false := by
      simp [listStarts, hXE]
    have h2 : listStarts [ec, X, ec] ('E' :: ec :: suf) = false := by
      simp [listStarts, hE]
    have h3 : listStarts [ec, X, ec] (ec :: suf) = false := by
      simp [listStarts, starts_two_false hsuf]
    have h4 : listHas [ec, X, ec] suf = false := listHas_head_notin hsuf
    simp only [listHas, h1, h2, h3, h4, Bool.false_or]
  | cons p pre' ih =>
    have hp : ec ≠ p := fun he => hpre (List.mem_cons.mpr (Or.inl he))
    have ih' := ih (fun hc => hpre (List.mem_cons_of_mem _ hc))
    simp only [List.cons_append, listHas, listStarts, if_neg hp, Bool.false_or]
    exact ih'

/-- No escape code occurs in `pre ++ [ec] ++ suf` when neither side mentions
`ec`. -/
theorem hasCode_single {ec X : Char} {pre suf : List Char}
    (hpre : ec ∉ pre) (hsuf : ec ∉ suf) :
    listHas [ec, X, ec] (pre ++ [ec] ++ suf) = false := by
  induction pre with
  | nil =>
    simp only [List.nil_append, List.cons_append]
    have h1 : listStarts [ec, X, ec] (ec :: suf) = false := by
      simp [listStarts, starts_two_false hsuf]
    have h2 : listHas [ec, X, ec] suf = false := listHas_head_notin hsuf
    simp only [listHas, h1, h2, Bool.false_or]
  | cons p pre' ih =>
    have hp : ec ≠ p := fun he => hpre (List.mem_cons.mpr (Or.inl he))
    have ih' := ih (fun hc => hpre (List.mem_cons_of_mem _ hc))
    simp only [List.cons_append, listHas, listStarts, if_neg hp, Bool.false_or]
    exact ih'

/-! Small evaluation facts for the escape codes themselves. -/

theorem notHas_code_in_code {ec X Y : Char} (hXY : X ≠ Y) (hecY : ec ≠ Y) :
    listHas [ec, X, ec] [ec, Y, ec] = false := by
  simp [listHas, listStarts, hXY, hecY]

theorem notHas_dbl_in_code {ec Y : Char} (hecY : ec ≠ Y) :
    listHas [ec, ec] [ec, Y, ec] = false := by
  simp [listHas, listStarts, hecY]

theorem notHas_code_in_single (ec X v : Char) :
    listHas [ec, X, ec] [v] = false := by
  simp [listHas, listStarts]

theorem notHas_dbl_in_single (ec v : Char) :
    listHas [ec, ec] [v] = false := by
  simp [listHas, listStarts]

theorem code_replace_self (ec X : Char) (r : List Char) :
    pyReplace [ec, X, ec] [ec, X, ec] r = r := by
  rw [pyReplace_start r (by simp) (by simp [listStarts])]
  simp [pyReplace_nil]

theorem dbl_replace_self (ec : Char) :
    pyReplace [ec, ec] [ec, ec] [ec] = [ec] := by
  rw [pyReplace_start [ec] (by simp) (by simp [listStarts])]
  simp [pyReplace_nil]

/-! ### Statement-level notions -/

theorem leafStored_procFields (d : Delims) (name : List Char) (fl : List (List Char))
    (n0 : Nat) (acc : Record) :
    leafStored d name n0 fl (procFields d name fl n0 acc) := by
  intro i hi jr hjr jc hjc js hjs
  exact procFields_lookup_at d name fl n0 acc i hi jr hjr jc hjc js hjs

theorem addCompB_iff (d : Delims) (rv : List Char) (ncomps : Nat) (cv : List Char)
    (nsubs : Nat) :
    addCompB d rv ncomps cv nsubs = true ↔
      (d.component_delimiter ∈ rv ∨ 1 < ncomps ∨
        (ncomps = 1 ∧ (d.subcomponent_delimiter ∈ cv ∨ 1 < nsubs))) := by
  unfold addCompB
  simp [chMem_iff, or_assoc]

theorem addSubB_iff (d : Delims) (cv : List Char) (nsubs : Nat) :
    addSubB d cv nsubs = true ↔ (d.subcomponent_delimiter ∈ cv ∨ 1 < nsubs) := by
  unfold addSubB
  simp [chMem_iff]

theorem unescape_eq (v : List Char) (fd cd rd ec sd : Char) :
    unescape_hl7_value v fd cd rd ec sd =
      pyReplace (pyReplace (pyReplace (pyReplace (pyReplace
        (pyReplace v [ec, ec] [ec]) [ec, 'F', ec] [fd]) [ec, 'S', ec] [cd])
        [ec, 'R', ec] [rd]) [ec, 'E', ec] [ec]) [ec, 'T', ec] [sd] := rfl

theorem mem_records_of_combine {RS : List Record} {v : SegValue} {r : Record}
    (h : combineSeg none RS = some v) (hr : r ∈ recordsOf v) : r ∈ RS := by
  rw [combineSeg_none] at h
  rcases RS with _ | ⟨r1, RS'⟩
  · simp at h
  · rcases RS' with _ | ⟨r2, rest⟩
    · have hv : SegValue.one r1 = v := Option.some.inj h
      rw [← hv] at hr
      simpa [recordsOf] using hr
    · have hv : SegValue.many (r1 :: r2 :: rest) = v := Option.some.inj h
      rw [← hv] at hr
      simpa [recordsOf] using hr

/-! ### The claims -/

/-- Claim C1: delimiter discovery inspects the first segment line whose tag
is the header tag `'MSH'` (the line starting with `'MSH'`): if that line is
longer than 3 characters, the character at index 3 becomes the field
delimiter; if it has at least 8 characters, the characters at indices 4 to 7
become, in order, the component delimiter, repetition delimiter, escape
character, and subcomponent delimiter; any delimiter not derivable this way
keeps its default from `| ^ ~ \ &`. -/
theorem delimiter_discovery (msg : List Char) :
    ((messageSegments msg).find? (fun s => listStarts mshName s) = none →
      messageDelims msg = defaultDelims) ∧
    ∀ l, (messageSegments msg).find? (fun s => listStarts mshName s) = some l →
      (∀ c, l.get? 3 = some c → (messageDelims msg).field_delimiter = c) ∧
      (l.get? 3 = none → (messageDelims msg).field_delimiter = '|') ∧
      (∀ h8 : 8 ≤ l.length,
        (messageDelims msg).component_delimiter = l.get ⟨4, by omega⟩ ∧
        (messageDelims msg).repetition_delimiter = l.get ⟨5, by omega⟩ ∧
        (messageDelims msg).escape_character = l.get ⟨6, by omega⟩ ∧
        (messageDelims msg).subcomponent_delimiter = l.get ⟨7, by omega⟩) ∧
      (l.length < 8 →
        (messageDelims msg).component_delimiter = '^' ∧
        (messageDelims msg).repetition_delimiter = '~' ∧
        (messageDelims msg).escape_character = '\\' ∧
        (messageDelims msg).subcomponent_delimiter = '&') := by
  unfold messageDelims
  constructor
  · intro h
    rw [h]
    rfl
  · intro l hl
    rw [hl]
    by_cases h3 : 3 < l.length <;> by_cases h8 : 8 ≤ l.length
    · have hd : discover (some l) =
          ⟨l.get ⟨3, h3⟩, l.get ⟨4, by omega⟩, l.get ⟨5, by omega⟩,
            l.get ⟨6, by omega⟩, l.get ⟨7, by omega⟩⟩ := by
        simp only [discover, dif_pos h3, dif_pos h8]
      rw [hd]
      refine ⟨?_, ?_, ?_, ?_⟩
      · intro c hc
        rw [get?_eq_get' l 3 h3] at hc
        exact Option.some.inj hc
      · intro hc
        rw [get?_eq_get' l 3 h3] at hc
        exact absurd hc (by simp)
      · intro h8'
        exact ⟨rfl, rfl, rfl, rfl⟩
      · intro h8'
        omega
    · have hd : discover (some l) =
          ⟨l.get ⟨3, h3⟩, '^', '~', '\\', '&'⟩ := by
        simp only [discover, dif_pos h3, dif_neg h8]
        rfl
      rw [hd]
      refine ⟨?_, ?_, ?_, ?_⟩
      · intro c hc
        rw [get?_eq_get' l 3 h3] at hc
        exact Option.some.inj hc
      · intro hc
        rw [get?_eq_get' l 3 h3] at hc
        exact absurd hc (by simp)
      · intro h8'
        omega
      · intro h8'
        exact ⟨rfl, rfl, rfl, rfl⟩
    · omega
    · have hd : discover (some l) = defaultDelims := by
        simp only [discover, dif_neg h3, dif_neg h8]
      rw [hd]
      refine ⟨?_, ?_, ?_, ?_⟩
      · intro c hc
        rw [get?_eq_none' l 3 (by omega)] at hc
        exact absurd hc (by simp)
      · intro hc
        rfl
      · intro h8'
        omega
      · intro h8'
        exact ⟨rfl, rfl, rfl, rfl⟩

/-- Witness for C1 at a concrete header line and a concrete headerless
message. -/
theorem delimiter_discovery_witness :
    (messageDelims "MSH#abcd#X".data).field_delimiter = '#' ∧
    (messageDelims "MSH#abcd#X".data).component_delimiter = 'a' ∧
    (messageDelims "MSH#abcd#X".data).repetition_delimiter = 'b' ∧
    (messageDelims "MSH#abcd#X".data).escape_character = 'c' ∧
    (messageDelims "MSH#abcd#X".data).subcomponent_delimiter = 'd' ∧
    messageDelims "PID|x".data = defaultDelims := by
  have h := delimiter_discovery "MSH#abcd#X".data
  have h2 := delimiter_discovery "PID|x".data
  have hfind : (messageSegments "MSH#abcd#X".data).find? (fun s => listStarts mshName s) =
      some "MSH#abcd#X".data := by decide
  have hfind2 : (messageSegments "PID|x".data).find? (fun s => listStarts mshName s) =
      none := by decide
  obtain ⟨hc1, hc2, hc3, hc4⟩ := h.2 _ hfind
  obtain ⟨h4, h5, h6, h7⟩ := hc3 (by decide)
  exact ⟨hc1 '#' (by decide), h4.trans (by decide), h5.trans (by decide),
    h6.trans (by decide), h7.trans (by decide), h2.1 hfind2⟩

/-- Claim C4: a segment line whose tag is the header tag stores the field
delimiter under field number 1, stores the second split element raw under
field number 2, and numbers general fields from 3 over the split elements
from index 2 onward; any other tag numbers general fields from 1 over the
split elements from index 1 onward. -/
theorem header_field_numbering (d : Delims) (line : List Char) :
    ((splitP d.field_delimiter line).1 = mshName →
      lookupD mshKey1 (parseLine d line) = some [d.field_delimiter] ∧
      (∀ f1 r2, (splitP d.field_delimiter line).2 = f1 :: r2 →
        lookupD mshKey2 (parseLine d line) = some f1) ∧
      leafStored d (splitP d.field_delimiter line).1 3
        ((splitP d.field_delimiter line).2.drop 1) (parseLine d line)) ∧
    ((splitP d.field_delimiter line).1 ≠ mshName →
      leafStored d (splitP d.field_delimiter line).1 1
        (splitP d.field_delimiter line).2 (parseLine d line)) := by
  have hp : parseLine d line =
      segRecord d (splitP d.field_delimiter line).1 (splitP d.field_delimiter line).2 := rfl
  constructor
  · intro h
    rw [hp, h]
    refine ⟨segRecord_msh1 d _, ?_, ?_⟩
    · intro f1 r2 hr
      rw [hr]
      exact segRecord_msh2 d f1 r2
    · cases hrest : (splitP d.field_delimiter line).2 with
      | nil =>
        rw [segRecord_msh_nil]
        intro i hi
        simp at hi
      | cons f1 r2 =>
        rw [segRecord_msh_cons]
        exact leafStored_procFields d mshName r2 3 _
  · intro h
    rw [hp, segRecord_other d _ _ h]
    exact leafStored_procFields d _ _ 1 []

/-- Witness for C4 on a concrete header line and a concrete other line. -/
theorem header_field_numbering_witness :
    lookupD mshKey1 (parseLine defaultDelims "MSH|^~\\&|AB^C".data) = some ['|'] ∧
    lookupD mshKey2 (parseLine defaultDelims "MSH|^~\\&|AB^C".data) = some "^~\\&".data ∧
    lookupD "MSH-3-1".data (parseLine defaultDelims "MSH|^~\\&|AB^C".data) =
      some "AB".data ∧
    lookupD "PID-1".data (parseLine defaultDelims "PID|x".data) = some "x".data := by
  have h := header_field_numbering defaultDelims "MSH|^~\\&|AB^C".data
  have h2 := header_field_numbering defaultDelims "PID|x".data
  obtain ⟨w1, w2, w3⟩ := h.1 (by decide)
  refine ⟨w1, w2 "^~\\&".data ["AB^C".data] (by decide), ?_, ?_⟩
  · exact w3 0 (by decide) 0 (by decide) 0 (by decide) 0 (by decide)
  · exact h2.2 (by decide) 0 (by decide) 0 (by decide) 0 (by decide) 0 (by decide)

/-- Claim C9: a general field, repetition, component, or subcomponent whose
text is the empty string is still stored, under its synthesised key, with the
empty string as value. -/
theorem empty_positions_stored (d : Delims) (name : List Char) (rest : List (List Char)) :
    ∀ (i : Nat) (hi : i < (lineSetup d name rest).2.1.length),
      ∀ (jr : Nat) (hjr : jr < (splitAll d.repetition_delimiter
        ((lineSetup d name rest).2.1.get ⟨i, hi⟩)).length),
      ∀ (jc : Nat) (hjc : jc < (splitAll d.component_delimiter
        ((splitAll d.repetition_delimiter ((lineSetup d name rest).2.1.get ⟨i, hi⟩)).get
          ⟨jr, hjr⟩)).length),
      ∀ (js : Nat) (hjs : js < (splitAll d.subcomponent_delimiter
        ((splitAll d.component_delimiter
          ((splitAll d.repetition_delimiter ((lineSetup d name rest).2.1.get ⟨i, hi⟩)).get
            ⟨jr, hjr⟩)).get ⟨jc, hjc⟩)).length),
      (splitAll d.subcomponent_delimiter
        ((splitAll d.component_delimiter
          ((splitAll d.repetition_delimiter ((lineSetup d name rest).2.1.get ⟨i, hi⟩)).get
            ⟨jr, hjr⟩)).get ⟨jc, hjc⟩)).get ⟨js, hjs⟩ = [] →
      lookupD (leafKey d name ((lineSetup d name rest).2.2 + i)
          (splitAll d.repetition_delimiter ((lineSetup d name rest).2.1.get ⟨i, hi⟩)).length
          (1 + jr)
          ((splitAll d.repetition_delimiter ((lineSetup d name rest).2.1.get ⟨i, hi⟩)).get
            ⟨jr, hjr⟩)
          (splitAll d.component_delimiter
            ((splitAll d.repetition_delimiter
              ((lineSetup d name rest).2.1.get ⟨i, hi⟩)).get ⟨jr, hjr⟩)).length
          (1 + jc)
          ((splitAll d.component_delimiter
            ((splitAll d.repetition_delimiter
              ((lineSetup d name rest).2.1.get ⟨i, hi⟩)).get ⟨jr, hjr⟩)).get ⟨jc, hjc⟩)
          (splitAll d.subcomponent_delimiter
            ((splitAll d.component_delimiter
              ((splitAll d.repetition_delimiter
                ((lineSetup d name rest).2.1.get ⟨i, hi⟩)).get ⟨jr, hjr⟩)).get
                  ⟨jc, hjc⟩)).length
          (1 + js)) (segRecord d name rest)
        = some [] := by
  intro i hi jr hjr jc hjc js hjs hempty
  have h := procFields_lookup_at d name (lineSetup d name rest).2.1
    (lineSetup d name rest).2.2 (lineSetup d name rest).1 i hi jr hjr jc hjc js hjs
  rw [hempty, unescapeV_nil] at h
  exact h

/-- Witness for C9: the empty first field of a `'PID'` line is stored under
`'PID-1'` with the empty string as value. -/
theorem empty_positions_stored_witness :
    lookupD "PID-1".data (segRecord defaultDelims "PID".data [[]]) = some [] := by
  exact empty_positions_stored defaultDelims "PID".data [[]] 0 (by decide) 0 (by decide)
    0 (by decide) 0 (by decide) (by decide)

/-- Claim C7: a tag occurring on exactly one non-blank line maps to a single
record; occurring `n ≥ 2` times it maps to the list of its `n` records in
original order of appearance. -/
theorem segment_aggregation (msg tag : List Char) :
    lookupSeg tag (parse_hl7_message msg) =
      match (tagLines (messageDelims msg) tag (messageSegments msg)).map
          (parseLine (messageDelims msg)) with
      | [] => none
      | [r] => some (SegValue.one r)
      | r1 :: r2 :: rest => some (SegValue.many (r1 :: r2 :: rest)) := by
  rw [parse_lookupSeg, combineSeg_none]

/-- Claim C8: decoding always terminates normally with a decoded message;
the decoder with every fallible operation of the source made explicit never
raises, on any input string. -/
theorem decode_total (msg : List Char) :
    parseChecked msg = Except.ok (parse_hl7_message msg) := by
  unfold parseChecked parse_hl7_message messageDelims
  rw [discoverChecked_eq, except_ok_bind, foldlM_stepSeg]

/-- Claim C5: a component index is appended to a leaf's key if and only if
the repetition text contains the component delimiter, or there is more than
one component, or there is exactly one component containing the subcomponent
delimiter or splitting into more than one subcomponent; a subcomponent index
is appended if and only if the component text contains the subcomponent
delimiter or splits into more than one subcomponent. -/
theorem component_subcomponent_index_rules (d : Delims) (name : List Char)
    (n nreps ri ci si ncomps nsubs : Nat) (rv cv : List Char)
    (hc : ncomps = (splitAll d.component_delimiter rv).length)
    (hs : nsubs = (splitAll d.subcomponent_delimiter cv).length) :
    ((d.subcomponent_delimiter ∈ cv ∨ 1 < nsubs) →
      (d.component_delimiter ∈ rv ∨ 1 < ncomps ∨
        (ncomps = 1 ∧ (d.subcomponent_delimiter ∈ cv ∨ 1 < nsubs)))) ∧
    (¬(d.component_delimiter ∈ rv ∨ 1 < ncomps ∨
        (ncomps = 1 ∧ (d.subcomponent_delimiter ∈ cv ∨ 1 < nsubs))) →
      leafKey d name n nreps ri rv ncomps ci cv nsubs si =
        name ++ '-' :: natChars n ++
          (if 1 < nreps then '[' :: natChars ri ++ [']'] else [])) ∧
    ((d.component_delimiter ∈ rv ∨ 1 < ncomps ∨
        (ncomps = 1 ∧ (d.subcomponent_delimiter ∈ cv ∨ 1 < nsubs))) →
      ¬(d.subcomponent_delimiter ∈ cv ∨ 1 < nsubs) →
      leafKey d name n nreps ri rv ncomps ci cv nsubs si =
        (name ++ '-' :: natChars n ++
          (if 1 < nreps then '[' :: natChars ri ++ [']'] else [])) ++
          '-' :: natChars ci) ∧
    ((d.component_delimiter ∈ rv ∨ 1 < ncomps ∨
        (ncomps = 1 ∧ (d.subcomponent_delimiter ∈ cv ∨ 1 < nsubs))) →
      (d.subcomponent_delimiter ∈ cv ∨ 1 < nsubs) →
      leafKey d name n nreps ri rv ncomps ci cv nsubs si =
        (name ++ '-' :: natChars n ++
          (if 1 < nreps then '[' :: natChars ri ++ [']'] else [])) ++
          '-' :: natChars ci ++ '-' :: natChars si) := by
  refine ⟨?_, ?_, ?_, ?_⟩
  · intro hQ
    by_cases h1 : ncomps = 1
    · exact Or.inr (Or.inr ⟨h1, hQ⟩)
    · have hpos : 0 < (splitAll d.component_delimiter rv).length := splitAll_length_pos _ _
      exact Or.inr (Or.inl (by omega))
  · intro hP
    have hb : ¬(addCompB d rv ncomps cv nsubs = true) :=
      fun h => hP ((addCompB_iff d rv ncomps cv nsubs).mp h)
    unfold leafKey
    rw [if_neg hb]
  · intro hP hnQ
    have hbP : addCompB d rv ncomps cv nsubs = true := (addCompB_iff d rv ncomps cv nsubs).mpr hP
    have hbQ : ¬(addSubB d cv nsubs = true) :=
      fun h => hnQ ((addSubB_iff d cv nsubs).mp h)
    unfold leafKey
    rw [if_pos hbP, if_neg hbQ]
  · intro hP hQ
    have hbP : addCompB d rv ncomps cv nsubs = true := (addCompB_iff d rv ncomps cv nsubs).mpr hP
    have hbQ : addSubB d cv nsubs = true := (addSubB_iff d cv nsubs).mpr hQ
    unfold leafKey
    rw [if_pos hbP, if_pos hbQ]

/-- Witness for C5 on the `PV1-7-2` key of the spec's first end-to-end
scenario. -/
theorem component_subcomponent_index_rules_witness :
    leafKey defaultDelims "PV1".data 7 1 1 "12345^SMITH".data 2 2 "SMITH".data 1 1 =
      "PV1-7-2".data := by
  have h := component_subcomponent_index_rules defaultDelims "PV1".data 7 1 1 2 1 2 1
    "12345^SMITH".data "SMITH".data (by decide) (by decide)
  have h3 := h.2.2.1 (by decide) (by decide)
  exact h3.trans (by decide)

/-- Claim C6: a general field splitting into more than one repetition gives
every leaf key a bracketed 1-based repetition index appended to the field
portion; a field with exactly one repetition yields keys with no bracket. -/
theorem repetition_index_rule (d : Delims) (name fv rv cv : List Char)
    (n nreps ri ncomps ci nsubs si : Nat)
    (hreps : nreps = (splitAll d.repetition_delimiter fv).length) :
    (1 < nreps → ∃ t, leafKey d name n nreps ri rv ncomps ci cv nsubs si =
      name ++ '-' :: natChars n ++ '[' :: natChars ri ++ ']' :: t) ∧
    (nreps = 1 → '[' ∉ name → '[' ∉ leafKey d name n nreps ri rv ncomps ci cv nsubs si) := by
  constructor
  · intro h1
    by_cases hcB : addCompB d rv ncomps cv nsubs = true
    · by_cases hsB : addSubB d cv nsubs = true
      · exact ⟨'-' :: natChars ci ++ '-' :: natChars si,
          by simp [leafKey, h1, hcB, hsB, List.append_assoc]⟩
      · exact ⟨'-' :: natChars ci, by simp [leafKey, h1, hcB, hsB, List.append_assoc]⟩
    · exact ⟨[], by simp [leafKey, h1, hcB, List.append_assoc]⟩
  · intro h1 hname hmem
    rw [leafKey_eq_tail] at hmem
    rcases List.mem_append.mp hmem with h | h
    · exact hname h
    · rcases List.mem_cons.mp h with h | h
      · exact absurd h (by decide)
      · unfold keyTail brktPart at h
        rw [if_neg (by omega : ¬ 1 < nreps)] at h
        rw [List.append_nil] at h
        rcases List.mem_append.mp h with h | h
        · exact absurd (natChars_digits n '[' h) (by decide)
        · unfold ctailPart at h
          split_ifs at h with hcomp hsub2
          · rcases List.mem_cons.mp h with h | h
            · exact absurd h (by decide)
            · rcases List.mem_append.mp h with h | h
              · exact absurd (natChars_digits ci '[' h) (by decide)
              · rcases List.mem_cons.mp h with h | h
                · exact absurd h (by decide)
                · exact absurd (natChars_digits si '[' h) (by decide)
          · rcases List.mem_cons.mp h with h | h
            · exact absurd h (by decide)
            · rcases List.mem_append.mp h with h | h
              · exact absurd (natChars_digits ci '[' h) (by decide)
              · simp at h
          · simp at h

/-- Witness for C6: a repeated field gets bracketed keys, a single
repetition gets none. -/
theorem repetition_index_rule_witness :
    (∃ t, leafKey defaultDelims "PID".data 13 2 1 "555".data 1 1 "555".data 1 1 =
      "PID".data ++ '-' :: natChars 13 ++ '[' :: natChars 1 ++ ']' :: t) ∧
    '[' ∉ leafKey defaultDelims "PID".data 5 1 1 "EV".data 1 1 "EV".data 1 1 := by
  have h1 := repetition_index_rule defaultDelims "PID".data "555~444".data "555".data
    "555".data 13 2 1 1 1 1 1 (by decide)
  have h2 := repetition_index_rule defaultDelims "PID".data "EV".data "EV".data
    "EV".data 5 1 1 1 1 1 1 (by decide)
  exact ⟨h1.1 (by decide), h2.2 rfl (by decide)⟩

/-- Counterexample to C2 as stated: escape resolution does not leave every
escape-bracketed code other than `F`, `S`, `R`, `T` unchanged — the code
`E`, bracketed by the escape character, is substituted by the escape
character itself. -/
theorem escape_fixed_code_counterexample :
    unescape_hl7_value ['\\', 'E', '\\'] '|' '^' '~' '\\' '&' = ['\\'] ∧
    unescape_hl7_value ['\\', 'E', '\\'] '|' '^' '~' '\\' '&' ≠ ['\\', 'E', '\\'] := by
  decide

/-- Claim C2 (amended): escape resolution first collapses each doubled
escape character, then substitutes the five codes `F`, `S`, `R`, `E`, `T`
(each bracketed by the escape character), in the source's order, with the
field, component, repetition delimiters, the escape character itself, and
the subcomponent delimiter respectively; any other escape-bracketed code is
left unchanged; the doubled-escape collapse is applied before the code
substitutions. -/
theorem escape_resolution_codes (fd cd rd ec sd Z : Char)
    (hec : ec ∉ (['F', 'S', 'R', 'E', 'T'] : List Char))
    (hZ : Z ∉ (['F', 'S', 'R', 'E', 'T'] : List Char)) (hZe : Z ≠ ec) :
    unescape_hl7_value [ec, ec] fd cd rd ec sd = [ec] ∧
    unescape_hl7_value [ec, 'F', ec] fd cd rd ec sd = [fd] ∧
    unescape_hl7_value [ec, 'S', ec] fd cd rd ec sd = [cd] ∧
    unescape_hl7_value [ec, 'R', ec] fd cd rd ec sd = [rd] ∧
    unescape_hl7_value [ec, 'E', ec] fd cd rd ec sd = [ec] ∧
    unescape_hl7_value [ec, 'T', ec] fd cd rd ec sd = [sd] ∧
    unescape_hl7_value [ec, Z, ec] fd cd rd ec sd = [ec, Z, ec] ∧
    unescape_hl7_value [ec, ec, 'F', ec, ec] fd cd rd ec sd = [fd] := by
  have hecF : ec ≠ 'F' := fun h => hec (by simp [h])
  have hecS : ec ≠ 'S' := fun h => hec (by simp [h])
  have hecR : ec ≠ 'R' := fun h => hec (by simp [h])
  have hecE : ec ≠ 'E' := fun h => hec (by simp [h])
  have hecT : ec ≠ 'T' := fun h => hec (by simp [h])
  have hZF : Z ≠ 'F' := fun h => hZ (by simp [h])
  have hZS : Z ≠ 'S' := fun h => hZ (by simp [h])
  have hZR : Z ≠ 'R' := fun h => hZ (by simp [h])
  have hZE : Z ≠ 'E' := fun h => hZ (by simp [h])
  have hZT : Z ≠ 'T' := fun h => hZ (by simp [h])
  refine ⟨?_, ?_, ?_, ?_, ?_, ?_, ?_, ?_⟩
  · rw [unescape_eq, dbl_replace_self,
      pyReplace_not_has (by simp) (notHas_code_in_single ec 'F' ec),
      pyReplace_not_has (by simp) (notHas_code_in_single ec 'S' ec),
      pyReplace_not_has (by simp) (notHas_code_in_single ec 'R' ec),
      pyReplace_not_has (by simp) (notHas_code_in_single ec 'E' ec),
      pyReplace_not_has (by simp) (notHas_code_in_single ec 'T' ec)]
  · rw [unescape_eq, pyReplace_not_has (by simp) (notHas_dbl_in_code hecF),
      code_replace_self,
      pyReplace_not_has (by simp) (notHas_code_in_single ec 'S' fd),
      pyReplace_not_has (by simp) (notHas_code_in_single ec 'R' fd),
      pyReplace_not_has (by simp) (notHas_code_in_single ec 'E' fd),
      pyReplace_not_has (by simp) (notHas_code_in_single ec 'T' fd)]
  · rw [unescape_eq, pyReplace_not_has (by simp) (notHas_dbl_in_code hecS),
      pyReplace_not_has (by simp) (notHas_code_in_code (by decide) hecS),
      code_replace_self,
      pyReplace_not_has (by simp) (notHas_code_in_single ec 'R' cd),
      pyReplace_not_has (by simp) (notHas_code_in_single ec 'E' cd),
      pyReplace_not_has (by simp) (notHas_code_in_single ec 'T' cd)]
  · rw [unescape_eq, pyReplace_not_has (by simp) (notHas_dbl_in_code hecR),
      pyReplace_not_has (by simp) (notHas_code_in_code (by decide) hecR),
      pyReplace_not_has (by simp) (notHas_code_in_code (by decide) hecR),
      code_replace_self,
      pyReplace_not_has (by simp) (notHas_code_in_single ec 'E' rd),
      pyReplace_not_has (by simp) (notHas_code_in_single ec 'T' rd)]
  · rw [unescape_eq, pyReplace_not_has (by simp) (notHas_dbl_in_code hecE),
      pyReplace_not_has (by simp) (notHas_code_in_code (by decide) hecE),
      pyReplace_not_has (by simp) (notHas_code_in_code (by decide) hecE),
      pyReplace_not_has (by simp) (notHas_code_in_code (by decide) hecE),
      code_replace_self,
      pyReplace_not_has (by simp) (notHas_code_in_single ec 'T' ec)]
  · rw [unescape_eq, pyReplace_not_has (by simp) (notHas_dbl_in_code hecT),
      pyReplace_not_has (by simp) (notHas_code_in_code (by decide) hecT),
      pyReplace_not_has (by simp) (notHas_code_in_code (by decide) hecT),
      pyReplace_not_has (by simp) (notHas_code_in_code (by decide) hecT),
      pyReplace_not_has (by simp) (notHas_code_in_code (by decide) hecT),
      code_replace_self]
  · rw [unescape_eq, pyReplace_not_has (by simp) (notHas_dbl_in_code (Ne.symm hZe)),
      pyReplace_not_has (by simp) (notHas_code_in_code (Ne.symm hZF) (Ne.symm hZe)),
      pyReplace_not_has (by simp) (notHas_code_in_code (Ne.symm hZS) (Ne.symm hZe)),
      pyReplace_not_has (by simp) (notHas_code_in_code (Ne.symm hZR) (Ne.symm hZe)),
      pyReplace_not_has (by simp) (notHas_code_in_code (Ne.symm hZE) (Ne.symm hZe)),
      pyReplace_not_has (by simp) (notHas_code_in_code (Ne.symm hZT) (Ne.symm hZe))]
  · have hdbl : pyReplace [ec, ec, 'F', ec, ec] [ec, ec] [ec] = [ec, 'F', ec] := by
      rw [pyReplace_start [ec] (by simp) (by simp [listStarts])]
      show [ec] ++ pyReplace ['F', ec, ec] [ec, ec] [ec] = _
      rw [pyReplace_not_start [ec] (by simp) (by simp [listStarts, hecF])]
      rw [dbl_replace_self]
      rfl
    rw [unescape_eq, hdbl, code_replace_self,
      pyReplace_not_has (by simp) (notHas_code_in_single ec 'S' fd),
      pyReplace_not_has (by simp) (notHas_code_in_single ec 'R' fd),
      pyReplace_not_has (by simp) (notHas_code_in_single ec 'E' fd),
      pyReplace_not_has (by simp) (notHas_code_in_single ec 'T' fd)]

/-- Witness for the amended C2 with the default delimiters and the
unrecognised code `X`. -/
theorem escape_resolution_codes_witness :
    unescape_hl7_value ['\\', 'E', '\\'] '|' '^' '~' '\\' '&' = ['\\'] ∧
    unescape_hl7_value ['\\', 'X', '\\'] '|' '^' '~' '\\' '&' = ['\\', 'X', '\\'] := by
  have h := escape_resolution_codes '|' '^' '~' '\\' '&' 'X' (by decide) (by decide)
    (by decide)
  exact ⟨h.2.2.2.2.1, h.2.2.2.2.2.2.1⟩

/-- Claim C10: escape resolution additionally substitutes the code `E`
(bracketed by the escape character) with the escape character itself; in a
leaf whose other characters do not involve the escape character, the
bracketed `E` becomes a single escape character in place. -/
theorem escape_E_code (fd cd rd ec sd : Char) (pre suf : List Char)
    (hE : ec ≠ 'E') (hpre : ec ∉ pre) (hsuf : ec ∉ suf) :
    unescape_hl7_value (pre ++ [ec, 'E', ec] ++ suf) fd cd rd ec sd =
      pre ++ [ec] ++ suf := by
  rw [unescape_eq]
  rw [pyReplace_not_has (by simp) (hasDbl_mid hE hpre hsuf)]
  rw [pyReplace_not_has (by simp) (hasCode_mid hE (show 'F' ≠ 'E' by decide) hpre hsuf)]
  rw [pyReplace_not_has (by simp) (hasCode_mid hE (show 'S' ≠ 'E' by decide) hpre hsuf)]
  rw [pyReplace_not_has (by simp) (hasCode_mid hE (show 'R' ≠ 'E' by decide) hpre hsuf)]
  rw [pyReplace_single [ec] (by simp) ?hp (listHas_head_notin hsuf)]
  case hp =>
    intro p q hq hqne
    match q, hqne with
    | q0 :: q', _ =>
      have hq0 : q0 ∈ pre := by
        rw [hq]
        exact List.mem_append.mpr (Or.inr (List.mem_cons_self _ _))
      have hne : ec ≠ q0 := fun he => hpre (he ▸ hq0)
      simp [listStarts, List.cons_append, hne]
  rw [pyReplace_not_has (by simp) (hasCode_single hpre hsuf)]

/-- Witness for C10 in a concrete context. -/
theorem escape_E_code_witness :
    unescape_hl7_value "ab\\E\\cd".data '|' '^' '~' '\\' '&' = "ab\\cd".data := by
  have h := escape_E_code '|' '^' '~' '\\' '&' ['a', 'b'] ['c', 'd'] (by decide)
    (by decide) (by decide)
  exact h

/-- Counterexample to C3 as stated: the header's field-2 value is stored
raw, so a stored value can contain a literal escape-bracketed code from the
recognised set, and is not the image of escape resolution. -/
theorem stored_value_raw_counterexample :
    ∃ r, lookupSeg mshName (parse_hl7_message "MSH|^~\\&\\F\\|A".data) =
        some (SegValue.one r) ∧
      lookupD mshKey2 r = some "^~\\&\\F\\".data ∧
      listHas ['\\', 'F', '\\'] "^~\\&\\F\\".data = true ∧
      unescape_hl7_value "^~\\&\\F\\".data '|' '^' '~' '\\' '&' ≠ "^~\\&\\F\\".data := by
  refine ⟨[(mshKey1, ['|']), (mshKey2, "^~\\&\\F\\".data), ("MSH-3".data, ['A'])],
    ?_, ?_, ?_, ?_⟩ <;> decide

/-- Claim C3 (amended): every value stored in any segment record of the
decoded result is either the header's field-1 entry (the field delimiter
itself), the header's field-2 entry (the raw second split element, which is
not escape-resolved), or the escape resolution of one of the line's
subcomponent texts. -/
theorem stored_values_unescaped (msg tag : List Char) (v : SegValue) (r : Record)
    (kv : List Char × List Char)
    (hv : lookupSeg tag (parse_hl7_message msg) = some v)
    (hr : r ∈ recordsOf v) (hkv : kv ∈ r) :
    ∃ line ∈ messageSegments msg, (strip line).isEmpty = false ∧
      (splitP (messageDelims msg).field_delimiter line).1 = tag ∧
      (kv = (mshKey1, [(messageDelims msg).field_delimiter]) ∨
       (∃ f1, (splitP (messageDelims msg).field_delimiter line).2.head? = some f1 ∧
         kv = (mshKey2, f1)) ∨
       (∃ fv ∈ (splitP (messageDelims msg).field_delimiter line).2,
        ∃ rv ∈ splitAll (messageDelims msg).repetition_delimiter fv,
        ∃ cv ∈ splitAll (messageDelims msg).component_delimiter rv,
        ∃ sv ∈ splitAll (messageDelims msg).subcomponent_delimiter cv,
          kv.2 = unescapeV (messageDelims msg) sv)) := by
  have h0 := parse_lookupSeg msg tag
  rw [hv] at h0
  have hrRS : r ∈ (tagLines (messageDelims msg) tag (messageSegments msg)).map
      (parseLine (messageDelims msg)) := mem_records_of_combine h0.symm hr
  obtain ⟨line, hline, hrl⟩ := List.mem_map.mp hrRS
  rw [tagLines] at hline
  obtain ⟨hmem, hcond⟩ := List.mem_filter.mp hline
  simp only [Bool.and_eq_true, Bool.not_eq_true', decide_eq_true_eq] at hcond
  refine ⟨line, hmem, hcond.1, hcond.2, ?_⟩
  rw [← hrl] at hkv
  exact mem_segRecord hkv

/-- Witness for the amended C3 at a concrete one-line message. -/
theorem stored_values_unescaped_witness :
    ∃ line ∈ messageSegments "PID|ab".data, (strip line).isEmpty = false ∧
      (splitP (messageDelims "PID|ab".data).field_delimiter line).1 = "PID".data ∧
      (("PID-1".data, "ab".data) =
          (mshKey1, [(messageDelims "PID|ab".data).field_delimiter]) ∨
       (∃ f1, (splitP (messageDelims "PID|ab".data).field_delimiter line).2.head? =
            some f1 ∧ ("PID-1".data, "ab".data) = (mshKey2, f1)) ∨
       (∃ fv ∈ (splitP (messageDelims "PID|ab".data).field_delimiter line).2,
        ∃ rv ∈ splitAll (messageDelims "PID|ab".data).repetition_delimiter fv,
        ∃ cv ∈ splitAll (messageDelims "PID|ab".data).component_delimiter rv,
        ∃ sv ∈ splitAll (messageDelims "PID|ab".data).subcomponent_delimiter cv,
          ("PID-1".data, "ab".data).2 = unescapeV (messageDelims "PID|ab".data) sv)) := by
  exact stored_values_unescaped "PID|ab".data "PID".data
    (SegValue.one [("PID-1".data, "ab".data)]) [("PID-1".data, "ab".data)]
    ("PID-1".data, "ab".data) (by decide) (by decide) (by decide)

end HL7
